import Mathlib

/-!
Verification of the CJSS stage-pipeline engine.

This file contains a shallow embedding of the current-generation CJSS
engine (src/src/cjss.js, src/src/Stage.js, src/src/registerPlugin.js,
the property extractor getProperty, and the default plugins at the
interface level), together with theorems settling the frozen claims
about it.

Modelling conventions:
- JavaScript values threaded through the stage pipeline are modelled by
  the inductive `JSVal` (objects are modelled as cons-lists of keyed
  values inside the same inductive, so that equality stays decidable).
- Author-supplied code (mode compilers and renderers) is modelled
  abstractly as functions returning a `CompileResult` / `StageOutcome`:
  success, a thrown CJSSError, or a thrown non-CJSS error.
- The DOM is modelled as a static structure `Dom`: a finite element
  universe plus a query function from (subtree root, selector) to the
  matched element list.  Stage execution is modelled as pure (the DOM
  is held fixed during a run); claims about DOM mutation are settled
  at the scheduling level.
- The per-rule processed sets, kept in the JS rule objects, are
  externalised into an explicit state: a list of processed-target
  lists, one per rule index.
- The re-entrant recursion of `runRules` is defined with an explicit
  nesting-depth budget (`fuel`); one unit is consumed per nested
  invocation, so the budget needed is exactly the recursion depth.
-/

namespace CJSS

/-! ## Characters, whitespace and the property extractor (getProperty) -/

/-- Character class of the mode identifier in getProperty's pattern,
`[-0-9A-Z_$]` with the `i` flag: ASCII letters, digits, `-`, `_`, `$`. -/
def isIdentChar (c : Char) : Bool :=
  c.isAlpha || c.isDigit || c == '-' || c == '_' || c == '$'

/-- The characters matched by JavaScript's `\s` (WhiteSpace and
LineTerminator), enumerated explicitly. -/
def wsChars : List Char :=
  [' ', '\t', '\n', '\r', '\x0b', '\x0c', ' ', ' ',
   ' ', ' ', ' ', ' ', ' ', ' ', ' ',
   ' ', ' ', ' ', ' ', ' ', ' ', ' ',
   ' ', '　', '﻿']

/-- JavaScript whitespace test (`\s`, also the set used by `trim`). -/
def isJsWs (c : Char) : Bool := wsChars.contains c

/-- JavaScript `String.prototype.trim` on a character list. -/
def jsTrim (l : List Char) : List Char :=
  ((l.dropWhile isJsWs).reverse.dropWhile isJsWs).reverse

/-- The `{mode, body}` pair produced by getProperty. `mode = none`
models the mode key being absent (bare-body case); `mode = some m`
models the matched identifier, possibly empty. -/
structure CJSSProperty where
  mode : Option String
  body : String
deriving DecidableEq, Repr

/-- The anchored regex `^([-0-9A-Z_$]*)\s*\(([\s\S]*)\)$` (flag `i`) of
getProperty, as a deterministic matcher: a maximal run of identifier
characters, a maximal run of whitespace, then a literal `(` whose
matching `)` must be the last character of the string; the greedy inner
group captures everything in between verbatim.  (The identifier and
whitespace classes are disjoint and contain neither parenthesis, so
the backtracking regex is equivalent to this maximal-munch scan.) -/
def matchModeBody (l : List Char) : Option (List Char × List Char) :=
  if ((l.dropWhile isIdentChar).dropWhile isJsWs).head? = some '(' ∧
      ((l.dropWhile isIdentChar).dropWhile isJsWs).getLast? = some ')' ∧
      2 ≤ ((l.dropWhile isIdentChar).dropWhile isJsWs).length then
    some (l.takeWhile isIdentChar, ((l.dropWhile isIdentChar).dropWhile isJsWs).tail.dropLast)
  else none

/-- getProperty (src/unnamed/part_002) on the raw custom-property value,
as a character list: trim; empty gives none; regex match gives
`{mode, body}`; otherwise the whole trimmed value is the body. -/
def getPropertyL (raw : List Char) : Option CJSSProperty :=
  let t := jsTrim raw
  if t.isEmpty then none
  else
    match matchModeBody t with
    | some (m, b) => some ⟨some (String.mk m), String.mk b⟩
    | none => some ⟨none, String.mk t⟩

/-- getProperty on a `String` raw value. -/
def getProperty (raw : String) : Option CJSSProperty :=
  getPropertyL raw.toList


/-! ## Stages (Stage.js) -/

/-- Identity of a rendering stage. -/
inductive StageName where
  | data | prepare | body | script
deriving DecidableEq, Repr

/-- The string name of a stage (`toString` in Stage.js), which is also
the custom-property suffix. -/
def StageName.str : StageName → String
  | .data => "data"
  | .prepare => "prepare"
  | .body => "body"
  | .script => "script"

/-- A stage enum element: name, default mode and optional legacy
fallback property name. -/
structure StageDef where
  tag : StageName
  defaultMode : String
  fallback : Option String

/-- `Stage.DATA`: property `--data`, default mode `json`, no fallback. -/
def dataStage : StageDef := ⟨.data, "json", none⟩

/-- `Stage.PREPARE`: property `--prepare`, default mode `js`, no fallback. -/
def prepareStage : StageDef := ⟨.prepare, "js", none⟩

/-- `Stage.BODY`: property `--body`, default mode `html`, legacy `--html`. -/
def bodyStage : StageDef := ⟨.body, "html", some ("html")⟩

/-- `Stage.SCRIPT`: property `--script`, default mode `js`, legacy `--js`. -/
def scriptStage : StageDef := ⟨.script, "js", some ("js")⟩

/-- `Stage.ordered`: the fixed compilation and execution order. -/
def stageOrdered : List StageDef := [dataStage, prepareStage, bodyStage, scriptStage]

/-! ## JavaScript values -/

/-- JavaScript values threaded through the pipeline as `data`.  Objects
are represented as cons-lists of keyed values inside the inductive so
that equality is decidable; `objNil` is the empty object `{}`. -/
inductive JSVal where
  | undef
  | nullV
  | boolV (b : Bool)
  | numV (n : Int)
  | strV (s : String)
  | objNil
  | objCons (key : String) (val tail : JSVal)
deriving DecidableEq, Repr

/-- JavaScript truthiness, as used by `x || y`. -/
def JSVal.truthy : JSVal → Bool
  | .undef => false
  | .nullV => false
  | .boolV b => b
  | .numV n => n != 0
  | .strV s => s != ""
  | .objNil => true
  | .objCons .. => true

/-! ## Targets and the DOM -/

/-- A target: a DOM element (by id), or `none` for the synthetic
"no element" target of the literal `script` selector (JS `null`). -/
abbrev Target := Option Nat

/-- A subtree root for a Rule Runner invocation: the whole document,
one element's subtree, or JS `null` (passed when a `script`-selector
rule triggers the re-entrant call). -/
inductive Root where
  | doc
  | elem (e : Nat)
  | nullRoot
deriving DecidableEq, Repr

/-- A static DOM: the finite element universe and the
`querySelectorAll` function, from (subtree root, selector) to the
matched elements in document order (`none` = whole document). -/
structure Dom where
  elems : List Nat
  query : Option Nat → String → List Nat

/-! ## Renderers, compilers and the plugin registry (registerPlugin.js) -/

/-- Outcome of invoking an author-supplied renderer on one target:
a returned value, a thrown CJSSError, or a thrown non-CJSS error. -/
inductive StageOutcome where
  | ok (v : JSVal)
  | errCjss (msg : String)
  | errOther (msg : String)
deriving DecidableEq, Repr

/-- A renderer: `(element, data) => result`. -/
abbrev Renderer := Target → JSVal → StageOutcome

/-- Outcome of invoking a mode compiler on a body string. -/
inductive CompileResult where
  | ok (r : Renderer)
  | errCjss (msg : String)
  | errOther (msg : String)

/-- A mode compiler: `body => renderer` (may throw). -/
abbrev Compiler := String → CompileResult

/-- One entry of the plugin table: per-stage compilers plus the
optional stage-independent fallback compiler. -/
structure PluginEntry (C : Type) where
  perStage : StageName → Option C
  fallback : Option C

/-- The plugin table, keyed by mode name. -/
abbrev Registry (C : Type) := String → Option (PluginEntry C)

/-- The mode name actually looked up: JS `mode || stage.defaultMode`
(both an absent mode and the empty-string mode fall back to the
stage's default mode). -/
def resolveModeName (stage : StageDef) (mode : Option String) : String :=
  match mode with
  | none => stage.defaultMode
  | some m => if m = "" then stage.defaultMode else m

/-- The two plain (non-CJSS) errors getPlugin can throw. -/
inductive PluginLookupError where
  | unknownPlugin (name : String)
  | unsupportedStage (mode : Option String) (stage : String)
deriving DecidableEq, Repr

/-- getPlugin (registerPlugin.js): resolve the mode name, fail if no
entry exists, else take the stage-specific compiler or the fallback,
failing if neither exists. -/
def getPlugin {C : Type} (reg : Registry C) (stage : StageDef) (mode : Option String) :
    Except PluginLookupError C :=
  match reg (resolveModeName stage mode) with
  | none => .error (.unknownPlugin (resolveModeName stage mode))
  | some entry =>
    match entry.perStage stage.tag with
    | some c => .ok c
    | none =>
      match entry.fallback with
      | some c => .ok c
      | none => .error (.unsupportedStage mode stage.tag.str)

/-- registerPlugin (registerPlugin.js): with no stages the method
becomes the mode's fallback compiler; otherwise it is bound to exactly
the given stages, overwriting silently. -/
def registerPlugin {C : Type} (reg : Registry C) (mode : String) (method : C)
    (includedStages : List StageName) : Registry C :=
  let entry := (reg mode).getD ⟨fun _ => none, none⟩
  let entry2 :=
    if includedStages.isEmpty then { entry with fallback := some method }
    else { entry with
           perStage := fun s => if s ∈ includedStages then some method else entry.perStage s }
  fun m => if m = mode then some entry2 else reg m

/-- The message text of a thrown getPlugin error. -/
def pluginErrMsg : PluginLookupError → String
  | .unknownPlugin n => "CJSS: Unknown Plugin " ++ n
  | .unsupportedStage m s =>
    "CJSS: Plugin " ++ m.getD ("undefined") ++ " does not support stage " ++ s ++ "."

/-! ## Rule compilation (compileRule in cjss.js) -/

/-- A source style rule: its selector text and the raw values of its
custom properties, keyed by property suffix (the part after `--`).
Absent properties are the empty string, as returned by
`getPropertyValue`. -/
structure SrcRule where
  selector : String
  props : String → String

/-- Property resolution for one stage:
`getProperty(rule, stage) || (stage.fallback && getProperty(rule, stage.fallback))`. -/
def stageProp (rule : SrcRule) (sd : StageDef) : Option CJSSProperty :=
  match getProperty (rule.props sd.tag.str) with
  | some p => some p
  | none =>
    match sd.fallback with
    | some f => if f = "" then none else getProperty (rule.props f)
    | none => none

/-- One compiled stage: stage identity, the mode/body captured for the
error logger, and the renderer closure. -/
structure RStage where
  stage : StageName
  mode : Option String
  body : String
  run : Renderer

/-- A compiled rule: selector plus ordered compiled stages.  (The JS
object also owns the mutable processed set; that state is externalised
into the runner's `ProcState`.) -/
structure CompiledRule where
  selector : String
  stages : List RStage

/-- An error-logger invocation at compile time, with its full context
(message, selector, stage, mode, body) as logged by buildErrorLogger. -/
structure CLog where
  msg : String
  sel : String
  stage : StageName
  mode : Option String
  body : String
deriving DecidableEq, Repr

/-- How the stage-compilation loop ended: all stages tried, `break` on
a CJSSError, or a rethrown fatal error. -/
inductive CompileHalt where
  | done
  | brk
  | fatalH (m : String)
deriving DecidableEq, Repr

/-- The stage loop of compileRule over the ordered stage list: absent
properties are skipped; a getPlugin failure is a plain error and
rethrows (fatal); a compiler CJSSError is logged and breaks the loop;
a compiler non-CJSS error rethrows (fatal). -/
def compileLoop (reg : Registry Compiler) (rule : SrcRule) :
    List StageDef → List RStage × List CLog × CompileHalt
  | [] => ([], [], .done)
  | sd :: rest =>
    match stageProp rule sd with
    | none => compileLoop reg rule rest
    | some p =>
      match getPlugin reg sd p.mode with
      | .error pe => ([], [], .fatalH (pluginErrMsg pe))
      | .ok comp =>
        match comp p.body with
        | .ok r =>
          let out := compileLoop reg rule rest
          (⟨sd.tag, p.mode, p.body, r⟩ :: out.1, out.2.1, out.2.2)
        | .errCjss m => ([], [⟨m, rule.selector, sd.tag, p.mode, p.body⟩], .brk)
        | .errOther m => ([], [], .fatalH m)

/-- Result of compileRule: a fatal rethrown error, or the error logs
plus zero-or-one compiled rule. -/
inductive CompOut where
  | fatal (logs : List CLog) (msg : String)
  | ok (logs : List CLog) (rules : List CompiledRule)

/-- compileRule (cjss.js): run the stage loop; on a fatal halt the
exception propagates; otherwise emit the rule iff at least one stage
compiled (`return stages.length ? [compiledRule] : []`). -/
def compileRule (reg : Registry Compiler) (rule : SrcRule) : CompOut :=
  let out := compileLoop reg rule stageOrdered
  match out.2.2 with
  | .fatalH m => .fatal out.2.1 m
  | _ => .ok out.2.1 (if out.1.isEmpty then [] else [⟨rule.selector, out.1⟩])

/-- Number of compiled rules emitted (none on a fatal error). -/
def CompOut.ruleCount : CompOut → Option Nat
  | .ok _ rs => some rs.length
  | .fatal _ _ => none

/-- The stage tags of each emitted compiled rule (none on fatal). -/
def CompOut.stageTags : CompOut → Option (List (List StageName))
  | .ok _ rs => some (rs.map (fun r => r.stages.map (fun s => s.stage)))
  | .fatal _ _ => none

/-- The compile-time error logs of a compileRule outcome. -/
def CompOut.logList : CompOut → List CLog
  | .ok ls _ => ls
  | .fatal ls _ => ls

/-- The stages of `l` that compile successfully (property present,
plugin resolves, compiler returns a renderer). -/
def compiledOfDefs (reg : Registry Compiler) (rule : SrcRule) (l : List StageDef) :
    List RStage :=
  l.filterMap (fun sd =>
    match stageProp rule sd with
    | none => none
    | some p =>
      match getPlugin reg sd p.mode with
      | .ok comp =>
        match comp p.body with
        | .ok r => some ⟨sd.tag, p.mode, p.body, r⟩
        | _ => none
      | .error _ => none)

/-- A stage either has no property or compiles successfully. -/
def stageOk (reg : Registry Compiler) (rule : SrcRule) (sd : StageDef) : Prop :=
  match stageProp rule sd with
  | none => True
  | some p =>
    match getPlugin reg sd p.mode with
    | .ok comp => ∃ r, comp p.body = CompileResult.ok r
    | .error _ => False

/-! ## The Rule Runner (runRules in cjss.js) -/

/-- The runner's observable events: a (rule, target) pair starting its
stage chain (right after being marked processed), one stage renderer
invocation (with its input data and outcome), and one contextual error
log. -/
inductive Ev where
  | run (i : Nat) (t : Target)
  | stageEv (i : Nat) (t : Target) (s : StageName) (dataIn : JSVal) (res : StageOutcome)
  | errLog (msg : String) (sel : String) (t : Target) (s : StageName)
      (mode : Option String) (body : String)
deriving DecidableEq, Repr

/-- The externalised per-rule processed sets: one processed-target list
per rule index. -/
abbrev ProcState := List (List Target)

/-- Result of the inner stage loop for one target: the events, the
final data value, whether a CJSSError broke the loop, and the message
of a rethrown fatal error if any. -/
structure StageRunOut where
  evs : List Ev
  dataOut : JSVal
  aborted : Bool
  fatalMsg : Option String
deriving DecidableEq, Repr

/-- The stage loop of runRules for one target:
`data = stage.run(element, data) || data` inside try/catch; a
CJSSError is logged with full context and breaks; any other error
propagates (fatal). -/
def runStages (sel : String) (i : Nat) (t : Target) :
    List RStage → JSVal → StageRunOut
  | [], d => ⟨[], d, false, none⟩
  | s :: rest, d =>
    match s.run t d with
    | .ok v =>
      let d2 := if v.truthy then v else d
      let out := runStages sel i t rest d2
      ⟨Ev.stageEv i t s.stage d (.ok v) :: out.evs, out.dataOut, out.aborted, out.fatalMsg⟩
    | .errCjss m =>
      ⟨[Ev.stageEv i t s.stage d (.errCjss m),
        Ev.errLog m sel t s.stage s.mode s.body], d, true, none⟩
    | .errOther m =>
      ⟨[Ev.stageEv i t s.stage d (.errOther m)], d, false, some m⟩

/-- Result of a runner invocation: nesting budget exhausted, a fatal
uncaught error (with the events so far), or normal completion with the
final processed state and the events. -/
inductive Out where
  | fuelOut
  | fatal (evs : List Ev) (msg : String)
  | ok (st : ProcState) (evs : List Ev)
deriving DecidableEq, Repr

/-- Prepend already-produced events to a runner result. -/
def Out.seq (pre : List Ev) : Out → Out
  | .fuelOut => .fuelOut
  | .fatal evs m => .fatal (pre ++ evs) m
  | .ok st evs => .ok st (pre ++ evs)

/-- Sequence a runner result with a continuation on the resulting
state; fatal errors and budget exhaustion short-circuit. -/
def Out.andThen (o : Out) (f : ProcState → Out) : Out :=
  match o with
  | .fuelOut => .fuelOut
  | .fatal evs m => .fatal evs m
  | .ok st evs => Out.seq evs (f st)

/-- `rule.stages.some(stage => stage.stage === Stage.BODY)`. -/
def updatesBody (r : CompiledRule) : Bool :=
  r.stages.any (fun s => s.stage == StageName.body)

/-- Target set of a rule:
`rule.selector === 'script' ? [null] : subtree.querySelectorAll(rule.selector)`.
Querying the JS `null` subtree throws a TypeError. -/
def targetsFor (dom : Dom) (root : Root) (r : CompiledRule) : Except String (List Target) :=
  if r.selector = "script" then .ok [none]
  else
    match root with
    | .doc => .ok ((dom.query none r.selector).map some)
    | .elem e => .ok ((dom.query (some e) r.selector).map some)
    | .nullRoot => .error ("TypeError: subtree is null")

/-- `i > limit`, with `none` playing JS `Infinity`. -/
def limitExceeded : Option Nat → Nat → Bool
  | none, _ => false
  | some l, i => decide (l < i)

/-- `rule.processed.add(element)` at rule index `i`. -/
def markProcessed (st : ProcState) (i : Nat) (t : Target) : ProcState :=
  st.set i (t :: st.getD i [])

/-- The element loop of runRules for one rule at index `i`: skip
processed targets; otherwise mark processed, run the stage chain from
an empty data object, and — when the rule has a body stage — re-enter
the runner (`recur`) on the target's subtree before continuing. -/
def targetLoop (recur : Nat → Target → ProcState → Out) (i : Nat)
    (rule : CompiledRule) (st : ProcState) : List Target → Out
  | [] => .ok st []
  | t :: ts =>
    if t ∈ st.getD i [] then targetLoop recur i rule st ts
    else
      let st1 := markProcessed st i t
      let sout := runStages rule.selector i t rule.stages JSVal.objNil
      Out.seq (Ev.run i t :: sout.evs)
        (match sout.fatalMsg with
         | some m => .fatal [] m
         | none =>
           if updatesBody rule then
             (recur i t st1).andThen (fun st2 => targetLoop recur i rule st2 ts)
           else targetLoop recur i rule st1 ts)

/-- The rule loop of runRules: iterate rules by index, stopping once
the index exceeds the limit; a TypeError from querying a null subtree
propagates. -/
def ruleLoop (dom : Dom) (recur : Nat → Target → ProcState → Out) (limit : Option Nat)
    (root : Root) (i : Nat) (st : ProcState) : List CompiledRule → Out
  | [] => .ok st []
  | rule :: rest =>
    if limitExceeded limit i then .ok st []
    else
      match targetsFor dom root rule with
      | .error m => .fatal [] m
      | .ok targets =>
        (targetLoop recur i rule st targets).andThen
          (fun st2 => ruleLoop dom recur limit root (i + 1) st2 rest)

/-- The subtree root passed to the re-entrant call
`runRules(rules, i, element)`. -/
def rootOfTarget : Target → Root
  | none => .nullRoot
  | some e => .elem e

/-- runRules (cjss.js), with an explicit nesting-depth budget: each
invocation level consumes one unit of fuel; the loops themselves are
structural.  The re-entrant call passes the same full rule list, the
current rule index as the new limit, and the target as the subtree. -/
def runRulesGo (dom : Dom) (rules : List CompiledRule) :
    Nat → Option Nat → Root → ProcState → Out
  | 0, _, _, _ => .fuelOut
  | fuel + 1, limit, root, st =>
    ruleLoop dom (fun j t st2 => runRulesGo dom rules fuel (some j) (rootOfTarget t) st2)
      limit root 0 st rules

/-- Fresh processed state: one empty set per rule. -/
def initSt (rules : List CompiledRule) : ProcState :=
  List.replicate rules.length []

/-- A full render pass: `runRules(compiledRules)` — no limit, whole
document, with the given nesting budget. -/
def runRulesTop (dom : Dom) (rules : List CompiledRule) (fuel : Nat) : Out :=
  runRulesGo dom rules fuel none .doc (initSt rules)

/-! ## Observables over event traces -/

/-- The (rule, target) pairs that started their stage chain. -/
def runPairs (evs : List Ev) : List (Nat × Target) :=
  evs.filterMap (fun e => match e with | .run i t => some (i, t) | _ => none)

/-- The (rule, target) pair of each stage invocation. -/
def stagePairs (evs : List Ev) : List (Nat × Target) :=
  evs.filterMap (fun e => match e with | .stageEv i t _ _ _ => some (i, t) | _ => none)

/-- The (input data, outcome) of each stage invocation in a trace. -/
def stageSteps (evs : List Ev) : List (JSVal × StageOutcome) :=
  evs.filterMap (fun e => match e with | .stageEv _ _ _ d r => some (d, r) | _ => none)

/-- Spec-side data-threading relation (the amended C2 contract): each
stage sees the current data value; after a stage returning `v` the
data becomes `v` when `v` is truthy and is retained otherwise; an
erroring stage ends the chain. -/
def dataChain (d : JSVal) : List (JSVal × StageOutcome) → Prop
  | [] => True
  | (dIn, r) :: rest =>
    dIn = d ∧
      match r with
      | .ok v => dataChain (if v.truthy then v else d) rest
      | _ => rest = []

/-- Whether a trace contains a body-stage renderer invocation. -/
def hasBodyStageEv (evs : List Ev) : Bool :=
  evs.any (fun e => match e with
    | .stageEv _ _ StageName.body _ _ => true
    | _ => false)

/-! ## Termination measure for the runner -/

/-- All targets a rule can ever process: the synthetic `script` target
plus every DOM element. -/
def targetUniv (dom : Dom) : List Target := none :: dom.elems.map some

/-- How many universe targets one rule has not yet processed. -/
def slack (dom : Dom) (row : List Target) : Nat :=
  ((targetUniv dom).filter (fun t => decide (t ∉ row))).length

/-- Total number of unprocessed (rule, target) pairs: the runner's
termination measure, and a bound on its re-entry depth. -/
def fuelNeed (dom : Dom) (st : ProcState) : Nat :=
  (st.map (slack dom)).sum

/-- The DOM's query results stay within its element universe. -/
def DomWf (dom : Dom) : Prop :=
  ∀ r s, ∀ e ∈ dom.query r s, e ∈ dom.elems

/-! ## Concrete model instances used by counterexamples and witnesses -/

/-- A stage whose renderer always returns `v`. -/
def mkStage (tag : StageName) (v : JSVal) : RStage :=
  ⟨tag, some ("x"), "b", fun _ _ => .ok v⟩

/-- A stage whose renderer always throws a CJSSError. -/
def mkFailStage (tag : StageName) (m : String) : RStage :=
  ⟨tag, some ("x"), "b", fun _ _ => .errCjss m⟩

/-- A stage whose renderer always throws a non-CJSS error. -/
def mkFatalStage (tag : StageName) (m : String) : RStage :=
  ⟨tag, some ("x"), "b", fun _ _ => .errOther m⟩

/-- A renderer that returns undefined. -/
def cxRendererU : Renderer := fun _ _ => .ok JSVal.undef

/-- A registry with the default-plugin shape: `json` registered for the
data stage only (its compiler, like the real JSON plugin, always
succeeds at compile time), and `js` registered as a fallback compiler
that throws a CJSSError on the body `BAD` (modelling a syntax error in
the author's snippet). -/
def cxRegistry : Registry Compiler := fun m =>
  if m = "json" then
    some ⟨fun s => if s = StageName.data then some (fun _ => .ok cxRendererU) else none, none⟩
  else if m = "js" then
    some ⟨fun _ => none,
      some (fun b => if b = "BAD" then .errCjss ("CJSS: SyntaxError in JavaScript parsing:")
            else .ok cxRendererU)⟩
  else none

/-- A rule whose data stage compiles fine and whose prepare stage fails
to compile with a CJSSError. -/
def cxRule1 : SrcRule :=
  ⟨".a", fun name =>
    if name = "data" then "json(1)"
    else if name = "prepare" then "js(BAD)"
    else ""⟩

/-- Null-returning data stage (for the data-threading counterexample). -/
def cxStageNull : RStage :=
  ⟨.data, some ("js"), "return null", fun _ _ => .ok JSVal.nullV⟩

/-- Undefined-returning prepare stage. -/
def cxStageUndef : RStage :=
  ⟨.prepare, some ("js"), "0", fun _ _ => .ok JSVal.undef⟩

/-- A DOM with two elements matching selector `x`, element 2 nested in
element 1's subtree (as `querySelectorAll` on the document returns all
matching descendants). -/
def dom4 : Dom :=
  ⟨[1, 2], fun r s =>
    if s = "x" then
      if r = none then [1, 2] else if r = some 1 then [2] else []
    else []⟩

/-- A single rule with a body stage matching selector `x`. -/
def rule4 : CompiledRule := ⟨"x", [mkStage .body .undef]⟩

/-- A DOM with one element matching selector `b`. -/
def dom5 : Dom := ⟨[1], fun r s => if s = "b" ∧ r = none then [1] else []⟩

/-- A rule whose data stage throws a CJSSError at run time and which
also carries a body stage (which therefore never runs). -/
def rule5 : CompiledRule := ⟨"b", [mkFailStage .data ("boom"), mkStage .body .undef]⟩

/-- A DOM with one element (7) that matches the selector string
`script`, to show the query is bypassed for the global script rule. -/
def domS : Dom := ⟨[7], fun _ s => if s = "script" then [7] else []⟩

/-- A rule with the literal `script` selector. -/
def ruleS : CompiledRule := ⟨"script", [mkStage .script .undef]⟩

/-- A rule whose data stage throws a non-CJSS (fatal) error. -/
def ruleF : CompiledRule := ⟨"b", [mkFatalStage .data ("FATAL")]⟩

/-- A DOM with two elements matching selector `b`. -/
def dom6 : Dom := ⟨[1, 2], fun r s => if s = "b" ∧ r = none then [1, 2] else []⟩

/-- A rule (no body stage) whose data stage always throws a CJSSError. -/
def ruleC : CompiledRule := ⟨"b", [mkFailStage .data ("boom")]⟩

/-! ## Theorems -/

/-! ## Specification-side predicates over runner outcomes -/

/-- State extension: same shape, pointwise larger processed rows. -/
def StExt (st st2 : ProcState) : Prop :=
  st2.length = st.length ∧ ∀ j, ∀ x ∈ st.getD j [], x ∈ st2.getD j []

/-- Invariant of a completed runner step starting from state `st`: the
state only grows; no (rule, target) pair starts twice; every started
pair was fresh and ends processed; every newly processed pair was
started; and every stage event is preceded by its pair's start
event. -/
def OutInv (st : ProcState) : Out → Prop
  | .fuelOut => True
  | .fatal _ _ => True
  | .ok st2 evs =>
    StExt st st2 ∧
    (runPairs evs).Nodup ∧
    (∀ p ∈ runPairs evs, p.2 ∈ st2.getD p.1 [] ∧ p.2 ∉ st.getD p.1 []) ∧
    (∀ j t, t ∈ st2.getD j [] → t ∉ st.getD j [] → (j, t) ∈ runPairs evs) ∧
    (∀ e1 j u s d r e2, evs = e1 ++ Ev.stageEv j u s d r :: e2 → (j, u) ∈ runPairs e1)

/-- A pair the runner can start: some subtree query of its own rule
listed the target. -/
def pairFromQuery (dom : Dom) (rules : List CompiledRule) (p : Nat × Target) : Prop :=
  ∃ root tg, ∃ hk : p.1 < rules.length,
    targetsFor dom root (rules.get ⟨p.1, hk⟩) = .ok tg ∧ p.2 ∈ tg

/-- Number of occurrences of a pair in a started-pairs list. -/
def countPair (p : Nat × Target) (l : List (Nat × Target)) : Nat :=
  (l.filter (fun q => decide (q = p))).length

/-! ### Lemmas about the extractor -/

theorem not_ident_and_ws (c : Char) : ¬ (isIdentChar c = true ∧ isJsWs c = true) := by
  rintro ⟨hid, hws⟩
  have hmem : c ∈ wsChars := by
    have := List.elem_iff.mp hws
    exact this
  fin_cases hmem <;> simp_all [isIdentChar]

theorem ws_not_ident {c : Char} (h : isJsWs c = true) : isIdentChar c = false := by
  by_contra hc
  exact not_ident_and_ws c ⟨by simpa using hc, h⟩

theorem ident_not_ws {c : Char} (h : isIdentChar c = true) : isJsWs c = false := by
  by_contra hc
  exact not_ident_and_ws c ⟨h, by simpa using hc⟩

theorem takeWhile_append_of_all {p : Char → Bool} (m rest : List Char)
    (hm : ∀ c ∈ m, p c = true) :
    (m ++ rest).takeWhile p = m ++ rest.takeWhile p := by
  induction m with
  | nil => simp
  | cons a l ih =>
    have ha : p a = true := hm a (by simp)
    simp [List.takeWhile_cons, ha, ih (fun c hc => hm c (by simp [hc]))]

theorem dropWhile_append_of_all {p : Char → Bool} (m rest : List Char)
    (hm : ∀ c ∈ m, p c = true) :
    (m ++ rest).dropWhile p = rest.dropWhile p := by
  induction m with
  | nil => simp
  | cons a l ih =>
    have ha : p a = true := hm a (by simp)
    simp [List.dropWhile_cons, ha, ih (fun c hc => hm c (by simp [hc]))]

theorem takeWhile_eq_nil_of_head {p : Char → Bool} (a : Char) (l : List Char)
    (ha : p a = false) : (a :: l).takeWhile p = [] := by
  simp [List.takeWhile_cons, ha]

theorem dropWhile_eq_self_of_head {p : Char → Bool} (a : Char) (l : List Char)
    (ha : p a = false) : (a :: l).dropWhile p = a :: l := by
  simp [List.dropWhile_cons, ha]

/-- A successful match is exactly a decomposition into identifier
characters, whitespace, and a parenthesised body reaching the end. -/
theorem matchModeBody_some_iff (t : List Char) (m b : List Char) :
    matchModeBody t = some (m, b) ↔
      (∀ c ∈ m, isIdentChar c = true) ∧
      ∃ w, (∀ c ∈ w, isJsWs c = true) ∧ t = m ++ (w ++ ('(' :: (b ++ [')']))) := by
  constructor
  · intro h
    unfold matchModeBody at h
    by_cases hcond : ((t.dropWhile isIdentChar).dropWhile isJsWs).head? = some '(' ∧
        ((t.dropWhile isIdentChar).dropWhile isJsWs).getLast? = some ')' ∧
        2 ≤ ((t.dropWhile isIdentChar).dropWhile isJsWs).length
    · rw [if_pos hcond] at h
      obtain ⟨hc1, hc2, hc3⟩ := hcond
      simp only [Option.some.injEq, Prod.mk.injEq] at h
      obtain ⟨hm1, hb1⟩ := h
      constructor
      · intro c hc
        rw [← hm1] at hc
        exact List.mem_takeWhile_imp hc
      · refine ⟨(t.dropWhile isIdentChar).takeWhile isJsWs,
          fun c hc => List.mem_takeWhile_imp hc, ?_⟩
        rcases hr2 : (t.dropWhile isIdentChar).dropWhile isJsWs with _ | ⟨a, r⟩
        · rw [hr2] at hc1; exact absurd hc1 (by simp)
        · rw [hr2] at hc1 hc2 hc3 hb1
          have ha : a = '(' := by simpa using hc1
          have hrne : r ≠ [] := by
            intro hr
            rw [hr] at hc3
            simp at hc3
          have hlast : r.getLast? = some ')' := by
            rcases r with _ | ⟨x, r'⟩
            · exact absurd rfl hrne
            · rw [List.getLast?_cons_cons] at hc2
              exact hc2
          have hglast : r.getLast hrne = ')' := by
            rw [List.getLast?_eq_getLast r hrne] at hlast
            exact (Option.some.injEq _ _).mp hlast
          have hr : r = b ++ [')'] := by
            have h1 : r.dropLast ++ [r.getLast hrne] = r :=
              List.dropLast_append_getLast hrne
            rw [hglast] at h1
            have hb : b = r.dropLast := by simpa using hb1.symm
            rw [hb]
            exact h1.symm
          have ht1 : t = t.takeWhile isIdentChar ++ t.dropWhile isIdentChar :=
            (List.takeWhile_append_dropWhile ..).symm
          have ht2 : t.dropWhile isIdentChar =
              (t.dropWhile isIdentChar).takeWhile isJsWs ++
              (t.dropWhile isIdentChar).dropWhile isJsWs :=
            (List.takeWhile_append_dropWhile ..).symm
          conv_lhs => rw [ht1, ht2, hr2]
          rw [hm1, ha, hr]
    · rw [if_neg hcond] at h
      exact absurd h (by simp)
  · rintro ⟨hm, w, hw, ht⟩
    have h1 : t.takeWhile isIdentChar = m := by
      rw [ht, takeWhile_append_of_all m _ hm]
      rcases w with _ | ⟨a, w'⟩
      · simp [takeWhile_eq_nil_of_head (p := isIdentChar) '(' _ (by decide)]
      · have : isIdentChar a = false := ws_not_ident (hw a (by simp))
        simp [takeWhile_eq_nil_of_head (p := isIdentChar) a _ this]
    have h2 : t.dropWhile isIdentChar = w ++ ('(' :: (b ++ [')'])) := by
      rw [ht, dropWhile_append_of_all m _ hm]
      rcases w with _ | ⟨a, w'⟩
      · simp [dropWhile_eq_self_of_head (p := isIdentChar) '(' _ (by decide)]
      · have : isIdentChar a = false := ws_not_ident (hw a (by simp))
        simp [dropWhile_eq_self_of_head (p := isIdentChar) a _ this]
    have h3 : (t.dropWhile isIdentChar).dropWhile isJsWs = '(' :: (b ++ [')']) := by
      rw [h2, dropWhile_append_of_all w _ hw]
      exact dropWhile_eq_self_of_head (p := isJsWs) '(' _ (by decide)
    have hlast : ('(' :: (b ++ [')'])).getLast? = some ')' := by
      have : '(' :: (b ++ [')']) = ('(' :: b) ++ [')'] := by simp
      rw [this, List.getLast?_concat]
    unfold matchModeBody
    rw [h3]
    rw [if_pos ⟨by simp, hlast, by simp⟩]
    simp only [Option.some.injEq, Prod.mk.injEq]
    exact ⟨h1, by simp [List.dropLast_concat]⟩

/-- A failed match means no such decomposition exists (the
decomposition, when it exists, is unique). -/
theorem matchModeBody_none_iff (t : List Char) :
    matchModeBody t = none ↔
      ¬ ∃ m w b, (∀ c ∈ m, isIdentChar c = true) ∧ (∀ c ∈ w, isJsWs c = true) ∧
        t = m ++ (w ++ ('(' :: (b ++ [')']))) := by
  constructor
  · rintro h ⟨m, w, b, hm, hw, ht⟩
    have := (matchModeBody_some_iff t m b).mpr ⟨hm, w, hw, ht⟩
    rw [h] at this
    exact absurd this (by simp)
  · intro h
    match hmb : matchModeBody t with
    | none => rfl
    | some (m, b) =>
      obtain ⟨hm, w, hw, ht⟩ := (matchModeBody_some_iff t m b).mp hmb
      exact absurd ⟨m, w, b, hm, hw, ht⟩ h



/-- C8: for every raw property value, the extractor returns none iff
the trimmed value is empty; if the trimmed value decomposes into an
optional identifier (letters, digits, `-`, `_`, `$`), optional
whitespace, and a parenthesised body whose closing `)` is the last
character (greedy to the end of the string, nested parentheses
preserved verbatim in the body), it returns that mode (possibly empty)
and body; otherwise it returns the entire trimmed value as the body
with the mode unset — and, being a total function, it never throws for
malformed non-empty input. -/
theorem C8_getProperty_extraction (raw : List Char) :
    (getPropertyL raw = none ↔ jsTrim raw = []) ∧
    (∀ m w b, (∀ c ∈ m, isIdentChar c = true) → (∀ c ∈ w, isJsWs c = true) →
      jsTrim raw = m ++ (w ++ ('(' :: (b ++ [')']))) →
      getPropertyL raw = some ⟨some (String.mk m), String.mk b⟩) ∧
    ((¬ ∃ m w b, (∀ c ∈ m, isIdentChar c = true) ∧ (∀ c ∈ w, isJsWs c = true) ∧
        jsTrim raw = m ++ (w ++ ('(' :: (b ++ [')'])))) → jsTrim raw ≠ [] →
      getPropertyL raw = some ⟨none, String.mk (jsTrim raw)⟩) := by
  refine ⟨?_, ?_, ?_⟩
  · unfold getPropertyL
    by_cases he : (jsTrim raw).isEmpty
    · rw [if_pos he]
      simp [List.isEmpty_iff.mp he]
    · rw [if_neg he]
      have : jsTrim raw ≠ [] := fun h => he (by simp [h])
      constructor
      · intro h
        match hmb : matchModeBody (jsTrim raw) with
        | some (m, b) => rw [hmb] at h; exact absurd h (by simp)
        | none => rw [hmb] at h; exact absurd h (by simp)
      · intro h
        exact absurd h this
  · intro m w b hm hw ht
    have hne : jsTrim raw ≠ [] := by rw [ht]; simp
    have hmb : matchModeBody (jsTrim raw) = some (m, b) :=
      (matchModeBody_some_iff _ m b).mpr ⟨hm, w, hw, ht⟩
    unfold getPropertyL
    rw [if_neg (fun h => hne (List.isEmpty_iff.mp h)), hmb]
  · intro hno hne
    have hmb : matchModeBody (jsTrim raw) = none := (matchModeBody_none_iff _).mpr hno
    unfold getPropertyL
    rw [if_neg (fun h => hne (List.isEmpty_iff.mp h)), hmb]

/-- C8 witness: the extractor at concrete inputs: a mode with a nested
parenthesis in the body, and a bare value with no parenthesised tail. -/
theorem C8_getProperty_extraction_witness :
    getPropertyL (String.toList (" js (a(b)) ")) =
      some ⟨some (String.mk (['j', 's'])), String.mk (['a', '(', 'b', ')'])⟩ ∧
    getPropertyL (String.toList ("a b")) =
      some ⟨none, String.mk (['a', ' ', 'b'])⟩ := by
  constructor
  · exact (C8_getProperty_extraction _).2.1 ['j', 's'] [' '] ['a', '(', 'b', ')']
      (by decide) (by decide) (by decide)
  · refine (C8_getProperty_extraction _).2.2 ?_ (by decide)
    exact (matchModeBody_none_iff _).mp (by decide)

/-- C9: plugin resolution for a (stage, mode) pair: an unset mode uses
the stage's default mode; resolution fails with "unknown plugin" iff
no entry exists for the resolved mode name; it fails with
"unsupported stage" iff an entry exists but has neither a
stage-specific compiler for that stage nor a fallback; otherwise it
returns the stage-specific compiler when registered, else the
fallback. -/
theorem C9_getPlugin_resolution {C : Type} (reg : Registry C) (stage : StageDef)
    (mode : Option String) :
    (resolveModeName stage none = stage.defaultMode) ∧
    ((∃ e, getPlugin reg stage mode = .error (.unknownPlugin e)) ↔
      reg (resolveModeName stage mode) = none) ∧
    ((∃ m s, getPlugin reg stage mode = .error (.unsupportedStage m s)) ↔
      ∃ entry, reg (resolveModeName stage mode) = some entry ∧
        entry.perStage stage.tag = none ∧ entry.fallback = none) ∧
    (∀ entry c, reg (resolveModeName stage mode) = some entry →
      entry.perStage stage.tag = some c →
      getPlugin reg stage mode = .ok c) ∧
    (∀ entry c, reg (resolveModeName stage mode) = some entry →
      entry.perStage stage.tag = none → entry.fallback = some c →
      getPlugin reg stage mode = .ok c) := by
  refine ⟨rfl, ?_, ?_, ?_, ?_⟩
  · match hreg : reg (resolveModeName stage mode) with
    | none => simp [getPlugin, hreg]
    | some entry =>
      match hps : entry.perStage stage.tag with
      | some c => simp [getPlugin, hreg, hps]
      | none =>
        match hf : entry.fallback with
        | some c => simp [getPlugin, hreg, hps, hf]
        | none => simp [getPlugin, hreg, hps, hf]
  · match hreg : reg (resolveModeName stage mode) with
    | none => simp [getPlugin, hreg]
    | some entry =>
      match hps : entry.perStage stage.tag with
      | some c => simp [getPlugin, hreg, hps]
      | none =>
        match hf : entry.fallback with
        | some c => simp [getPlugin, hreg, hps, hf]
        | none => simp [getPlugin, hreg, hps, hf]
  · intro entry c hreg hps
    simp [getPlugin, hreg, hps]
  · intro entry c hreg hps hf
    simp [getPlugin, hreg, hps, hf]

/-- C9 witness: resolution at a concrete registry: the data stage with
an unset mode resolves `json`'s stage-specific compiler; the prepare
stage with mode `js` resolves the fallback; an unknown mode fails with
the unknown-plugin error. -/
theorem C9_getPlugin_resolution_witness :
    getPlugin cxRegistry dataStage none = .ok (fun _ => .ok cxRendererU) ∧
    getPlugin cxRegistry prepareStage (some ("js")) =
      .ok (fun b => if b = "BAD" then .errCjss ("CJSS: SyntaxError in JavaScript parsing:")
           else .ok cxRendererU) ∧
    (∃ e, getPlugin (C := Compiler) cxRegistry dataStage (some ("nope")) =
      .error (.unknownPlugin e)) := by
  refine ⟨?_, ?_, ?_⟩
  · exact (C9_getPlugin_resolution cxRegistry dataStage none).2.2.2.1 _ _ rfl rfl
  · exact (C9_getPlugin_resolution cxRegistry prepareStage (some ("js"))).2.2.2.2 _ _
      rfl rfl rfl
  · exact (C9_getPlugin_resolution (C := Compiler) cxRegistry dataStage
      (some ("nope"))).2.1.mpr rfl

/-- runStages threads data according to the `|| data` step: each stage
sees the current value, which is replaced by a truthy return and
retained on a falsy one. -/
theorem runStages_chain (sel : String) (i : Nat) (t : Target) :
    ∀ (stages : List RStage) (d : JSVal),
      dataChain d (stageSteps (runStages sel i t stages d).evs) := by
  intro stages
  induction stages with
  | nil => intro d; simp [runStages, stageSteps, dataChain]
  | cons s rest ih =>
    intro d
    unfold runStages
    match hr : s.run t d with
    | .ok v =>
      simp only [stageSteps, List.filterMap_cons]
      exact ⟨rfl, ih _⟩
    | .errCjss m =>
      simp only [stageSteps, List.filterMap_cons, List.filterMap_nil]
      exact ⟨rfl, rfl⟩
    | .errOther m =>
      simp only [stageSteps, List.filterMap_cons, List.filterMap_nil]
      exact ⟨rfl, rfl⟩

/-- C2 (amended): while running one rule's compiled stages for a single
target, the data value starts as the empty object and, after each
stage, equals that stage's return value unless that return value is
falsy (undefined, null, false, 0, the empty string), in which case —
and only then — it remains exactly the value it had before that
stage. -/
theorem C2_data_threading_amended (sel : String) (i : Nat) (t : Target)
    (stages : List RStage) :
    dataChain JSVal.objNil (stageSteps (runStages sel i t stages JSVal.objNil).evs) :=
  runStages_chain sel i t stages JSVal.objNil

/-- C2 counterexample: the first stage returns null — which is not
undefined, so the claim as stated requires the next stage to receive
null — yet the second stage still receives the previous (empty-object)
data value: `||` retains the previous value for every falsy return,
not only for undefined. -/
theorem C2_counterexample :
    stageSteps (runStages ("s") 0 (some 1) [cxStageNull, cxStageUndef] JSVal.objNil).evs =
      [(JSVal.objNil, .ok JSVal.nullV), (JSVal.objNil, .ok JSVal.undef)] ∧
    JSVal.objNil ≠ JSVal.nullV := by
  exact ⟨rfl, by decide⟩


/-- One unfolding step of the compile loop. -/
theorem compileLoop_cons (reg : Registry Compiler) (rule : SrcRule)
    (sd : StageDef) (rest : List StageDef) :
    compileLoop reg rule (sd :: rest) =
      match stageProp rule sd with
      | none => compileLoop reg rule rest
      | some p =>
        match getPlugin reg sd p.mode with
        | .error pe => ([], [], .fatalH (pluginErrMsg pe))
        | .ok comp =>
          match comp p.body with
          | .ok r =>
            let out := compileLoop reg rule rest
            (⟨sd.tag, p.mode, p.body, r⟩ :: out.1, out.2.1, out.2.2)
          | .errCjss m => ([], [⟨m, rule.selector, sd.tag, p.mode, p.body⟩], .brk)
          | .errOther m => ([], [], .fatalH m) := rfl

/-- The compile loop at the first user-code failure: every earlier
stage either lacks a property or compiles, the failing stage logs one
error and breaks, and the later stages are never compiled. -/
theorem compileLoop_break (reg : Registry Compiler) (rule : SrcRule)
    (sd : StageDef) (p : CJSSProperty) (comp : Compiler) (m : String)
    (hp : stageProp rule sd = some p)
    (hplug : getPlugin reg sd p.mode = .ok comp)
    (hfail : comp p.body = CompileResult.errCjss m) :
    ∀ pre suf, (∀ sd2 ∈ pre, stageOk reg rule sd2) →
      compileLoop reg rule (pre ++ sd :: suf) =
        (compiledOfDefs reg rule pre,
         [⟨m, rule.selector, sd.tag, p.mode, p.body⟩], .brk) := by
  intro pre
  induction pre with
  | nil =>
    intro suf _
    simp [compileLoop, hp, hplug, hfail, compiledOfDefs]
  | cons sd2 pre2 ih =>
    intro suf hpre
    have hsd2 := hpre sd2 (by simp)
    have hrest : ∀ x ∈ pre2, stageOk reg rule x := fun x hx => hpre x (by simp [hx])
    unfold stageOk at hsd2
    have hca : (sd2 :: pre2) ++ sd :: suf = sd2 :: (pre2 ++ sd :: suf) := by simp
    match hp2 : stageProp rule sd2 with
    | none =>
      have hstep : compileLoop reg rule ((sd2 :: pre2) ++ sd :: suf) =
          compileLoop reg rule (pre2 ++ sd :: suf) := by
        rw [hca, compileLoop_cons]
        simp [hp2]
      rw [hstep, ih suf hrest]
      simp [compiledOfDefs, hp2]
    | some p2 =>
      rw [hp2] at hsd2
      simp only [] at hsd2
      match hg2 : getPlugin reg sd2 p2.mode with
      | .error pe =>
        rw [hg2] at hsd2
        exact absurd hsd2 (by simp)
      | .ok comp2 =>
        rw [hg2] at hsd2
        simp only [] at hsd2
        obtain ⟨r2, hr2⟩ := hsd2
        have hstep : compileLoop reg rule ((sd2 :: pre2) ++ sd :: suf) =
            (⟨sd2.tag, p2.mode, p2.body, r2⟩ ::
               (compileLoop reg rule (pre2 ++ sd :: suf)).1,
             (compileLoop reg rule (pre2 ++ sd :: suf)).2.1,
             (compileLoop reg rule (pre2 ++ sd :: suf)).2.2) := by
          rw [hca, compileLoop_cons]
          simp [hp2, hg2, hr2]
        rw [hstep, ih suf hrest]
        simp [compiledOfDefs, hp2, hg2, hr2]

/-- C1 (amended): if compiling some stage's property of a style rule
raises a user-code error while every earlier stage either had no
property or compiled successfully, the Rule Compiler logs the error,
skips the failing and all later stages — but the already-compiled
earlier stages are KEPT: the rule is emitted with exactly those
stages, and zero compiled rules are emitted only when no stage had
compiled before the failure.  Other rules are unaffected (compilation
is per-rule). -/
theorem C1_compile_error_amended (reg : Registry Compiler) (rule : SrcRule)
    (pre suf : List StageDef) (sd : StageDef) (p : CJSSProperty) (comp : Compiler)
    (m : String)
    (hsplit : stageOrdered = pre ++ sd :: suf)
    (hpre : ∀ sd2 ∈ pre, stageOk reg rule sd2)
    (hp : stageProp rule sd = some p)
    (hplug : getPlugin reg sd p.mode = .ok comp)
    (hfail : comp p.body = CompileResult.errCjss m) :
    compileRule reg rule =
      CompOut.ok [⟨m, rule.selector, sd.tag, p.mode, p.body⟩]
        (if (compiledOfDefs reg rule pre).isEmpty then []
         else [⟨rule.selector, compiledOfDefs reg rule pre⟩]) := by
  unfold compileRule
  rw [hsplit, compileLoop_break reg rule sd p comp m hp hplug hfail pre suf hpre]

/-- C1 counterexample: cxRule1's prepare stage raises a user-code error
at compile time (after the data stage already compiled), yet
compileRule emits ONE compiled rule — the claim says zero — carrying
the already-compiled data stage, with the error logged once. -/
theorem C1_counterexample :
    (compileRule cxRegistry cxRule1).ruleCount = some 1 ∧
    (compileRule cxRegistry cxRule1).stageTags = some [[StageName.data]] ∧
    (compileRule cxRegistry cxRule1).logList =
      [⟨"CJSS: SyntaxError in JavaScript parsing:", ".a", StageName.prepare,
        some ("js"), "BAD"⟩] ∧
    ¬ (compileRule cxRegistry cxRule1).ruleCount = some 0 := by
  exact ⟨by decide, by decide, by decide, by decide⟩

/-- C1 witness: the amended theorem applied to the concrete registry
and rule: the data stage is kept, the prepare failure is logged. -/
theorem C1_compile_error_amended_witness :
    compileRule cxRegistry cxRule1 =
      CompOut.ok [⟨"CJSS: SyntaxError in JavaScript parsing:", ".a", StageName.prepare,
        some ("js"), "BAD"⟩]
        [⟨".a", compiledOfDefs cxRegistry cxRule1 [dataStage]⟩] := by
  have h := C1_compile_error_amended cxRegistry cxRule1 [dataStage]
    [bodyStage, scriptStage] prepareStage ⟨some ("js"), "BAD"⟩
    (fun b => if b = "BAD" then .errCjss ("CJSS: SyntaxError in JavaScript parsing:")
     else .ok cxRendererU)
    ("CJSS: SyntaxError in JavaScript parsing:")
    rfl
    (by
      intro sd2 hm
      simp only [List.mem_singleton] at hm
      subst hm
      exact ⟨cxRendererU, rfl⟩)
    (by decide)
    rfl
    rfl
  rw [h]
  rfl


/-! ### Processed-state helpers -/

theorem getD_set_self : ∀ (st : ProcState) (i : Nat) (r : List Target),
    i < st.length → (st.set i r).getD i [] = r := by
  intro st
  induction st with
  | nil => intro i r h; simp at h
  | cons a l ih =>
    intro i r h
    cases i with
    | zero => simp [List.getD]
    | succ n =>
      simp only [List.set, List.getD_cons_succ]
      exact ih n r (by simpa using h)

theorem getD_set_ne : ∀ (st : ProcState) (i j : Nat) (r : List Target),
    j ≠ i → (st.set i r).getD j [] = st.getD j [] := by
  intro st
  induction st with
  | nil => intro i j r _; simp
  | cons a l ih =>
    intro i j r hne
    cases i with
    | zero =>
      cases j with
      | zero => exact absurd rfl hne
      | succ n => simp [List.getD]
    | succ n =>
      cases j with
      | zero => simp [List.getD]
      | succ k =>
        simp only [List.set, List.getD_cons_succ]
        exact ih n k r (fun h => hne (by rw [h]))

theorem markProcessed_length (st : ProcState) (i : Nat) (t : Target) :
    (markProcessed st i t).length = st.length := by
  simp [markProcessed]

theorem markProcessed_getD_self (st : ProcState) (i : Nat) (t : Target)
    (hi : i < st.length) :
    (markProcessed st i t).getD i [] = t :: st.getD i [] :=
  getD_set_self st i _ hi

theorem markProcessed_getD_ne (st : ProcState) (i j : Nat) (t : Target)
    (hne : j ≠ i) :
    (markProcessed st i t).getD j [] = st.getD j [] :=
  getD_set_ne st i j _ hne


theorem StExt.refl (st : ProcState) : StExt st st := ⟨Eq.refl _, fun _ _ hx => hx⟩

theorem StExt.trans {st st2 st3 : ProcState} (h1 : StExt st st2) (h2 : StExt st2 st3) :
    StExt st st3 :=
  ⟨h2.1.trans h1.1, fun j x hx => h2.2 j x (h1.2 j x hx)⟩

theorem StExt.mark (st : ProcState) (i : Nat) (t : Target) :
    StExt st (markProcessed st i t) := by
  refine ⟨markProcessed_length st i t, fun j x hx => ?_⟩
  by_cases hij : j = i
  · subst hij
    by_cases hi : j < st.length
    · rw [markProcessed_getD_self st j t hi]
      exact List.mem_cons_of_mem _ hx
    · have hset : markProcessed st j t = st := by
        unfold markProcessed
        exact List.set_eq_of_length_le (Nat.le_of_not_lt hi)
      rw [hset]
      exact hx
  · rw [markProcessed_getD_ne st i j t hij]
    exact hx

/-! ### Event-trace facts about the stage loop -/

theorem runPairs_append (e1 e2 : List Ev) :
    runPairs (e1 ++ e2) = runPairs e1 ++ runPairs e2 := by
  simp [runPairs]

theorem stagePairs_append (e1 e2 : List Ev) :
    stagePairs (e1 ++ e2) = stagePairs e1 ++ stagePairs e2 := by
  simp [stagePairs]

/-- The stage loop emits no pair-started events. -/
theorem runStages_no_run (sel : String) (i : Nat) (t : Target) :
    ∀ (stages : List RStage) (d : JSVal),
      runPairs (runStages sel i t stages d).evs = [] := by
  intro stages
  induction stages with
  | nil => intro d; simp [runStages, runPairs]
  | cons s rest ih =>
    intro d
    unfold runStages
    match hr : s.run t d with
    | .ok v =>
      simp only [runPairs, List.filterMap_cons]
      exact ih _
    | .errCjss m => simp [runPairs]
    | .errOther m => simp [runPairs]

/-- Every stage event of the stage loop belongs to its own pair. -/
theorem runStages_stagePairs (sel : String) (i : Nat) (t : Target) :
    ∀ (stages : List RStage) (d : JSVal),
      ∀ p ∈ stagePairs (runStages sel i t stages d).evs, p = (i, t) := by
  intro stages
  induction stages with
  | nil => intro d p hp; simp [runStages, stagePairs] at hp
  | cons s rest ih =>
    intro d p hp
    unfold runStages at hp
    match hr : s.run t d with
    | .ok v =>
      rw [hr] at hp
      simp only [stagePairs, List.filterMap_cons] at hp
      rcases List.mem_cons.mp hp with h | h
      · exact h
      · exact ih _ p h
    | .errCjss m =>
      rw [hr] at hp
      simp only [stagePairs, List.filterMap_cons, List.filterMap_nil] at hp
      rcases List.mem_cons.mp hp with h | h
      · exact h
      · simp at h
    | .errOther m =>
      rw [hr] at hp
      simp only [stagePairs, List.filterMap_cons, List.filterMap_nil] at hp
      rcases List.mem_cons.mp hp with h | h
      · exact h
      · simp at h

/-- Any stage event in a trace contributes its pair to `stagePairs`. -/
theorem stagePairs_of_split {evs e1 e2 : List Ev} {j : Nat} {u : Target}
    {s : StageName} {d : JSVal} {r : StageOutcome}
    (h : evs = e1 ++ Ev.stageEv j u s d r :: e2) :
    (j, u) ∈ stagePairs evs := by
  subst h
  rw [stagePairs_append]
  refine List.mem_append_right _ ?_
  simp [stagePairs, List.filterMap_cons]

/-! ### The runner invariant -/


theorem OutInv.nilStep (st : ProcState) : OutInv st (.ok st []) := by
  refine ⟨StExt.refl st, by simp [runPairs], by simp [runPairs], ?_, ?_⟩
  · intro j t h1 h2
    exact absurd h1 h2
  · intro e1 j u s d r e2 h
    exact absurd h (by simp)

/-- Sequential composition of two completed steps. -/
theorem OutInv.compose {st st1 st2 : ProcState} {ea eb : List Ev}
    (h1 : OutInv st (.ok st1 ea)) (h2 : OutInv st1 (.ok st2 eb)) :
    OutInv st (.ok st2 (ea ++ eb)) := by
  obtain ⟨hx1, hnd1, hmem1, hcomp1, hst1⟩ := h1
  obtain ⟨hx2, hnd2, hmem2, hcomp2, hst2⟩ := h2
  refine ⟨hx1.trans hx2, ?_, ?_, ?_, ?_⟩
  · rw [runPairs_append]
    refine List.Nodup.append hnd1 hnd2 ?_
    intro p hpa hpb
    exact (hmem2 p hpb).2 ((hmem1 p hpa).1)
  · intro p hp
    rw [runPairs_append] at hp
    rcases List.mem_append.mp hp with h | h
    · exact ⟨hx2.2 p.1 p.2 (hmem1 p h).1, (hmem1 p h).2⟩
    · refine ⟨(hmem2 p h).1, fun hmem => ?_⟩
      exact (hmem2 p h).2 (hx1.2 p.1 p.2 hmem)
  · intro j t h1m h0m
    rw [runPairs_append]
    by_cases hmid : t ∈ st1.getD j []
    · exact List.mem_append_left _ (hcomp1 j t hmid h0m)
    · exact List.mem_append_right _ (hcomp2 j t h1m hmid)
  · intro e1 j u s d r e2 hsplit
    rcases List.append_eq_append_iff.mp hsplit with ⟨a2, he1, heb⟩ | ⟨c2, hea, hd⟩
    · have hin := hst2 a2 j u s d r e2 heb
      rw [he1, runPairs_append]
      exact List.mem_append_right _ hin
    · rcases c2 with _ | ⟨x, c3⟩
      · simp only [List.nil_append] at hd
        have := hst2 [] j u s d r e2 hd.symm
        simp [runPairs] at this
      · have hx : x = Ev.stageEv j u s d r ∧ e2 = c3 ++ eb := by
          have h2 := hd
          simp only [List.cons_append, List.cons.injEq] at h2
          exact ⟨h2.1.symm, h2.2⟩
        obtain ⟨hx1, _⟩ := hx
        subst hx1
        exact hst1 e1 j u s d r c3 hea


/-- Processing one fresh (rule, target) pair satisfies the invariant. -/
theorem OutInv.freshStep (st : ProcState) (i : Nat) (t : Target)
    (hi : i < st.length) (hfresh : t ∉ st.getD i []) (sevs : List Ev)
    (hnr : runPairs sevs = [])
    (hsp : ∀ p ∈ stagePairs sevs, p = (i, t)) :
    OutInv st (.ok (markProcessed st i t) (Ev.run i t :: sevs)) := by
  have hcons : runPairs (Ev.run i t :: sevs) = (i, t) :: runPairs sevs := by
    simp [runPairs, List.filterMap_cons]
  have hrp : runPairs (Ev.run i t :: sevs) = [(i, t)] := by
    rw [hcons, hnr]
  refine ⟨StExt.mark st i t, ?_, ?_, ?_, ?_⟩
  · rw [hrp]; simp
  · intro p hp
    rw [hrp] at hp
    simp only [List.mem_singleton] at hp
    subst hp
    constructor
    · rw [markProcessed_getD_self st i t hi]
      exact List.mem_cons_self t _
    · exact hfresh
  · intro j t2 hmem hnmem
    rw [hrp]
    by_cases hij : j = i
    · subst hij
      rw [markProcessed_getD_self st j t hi] at hmem
      rcases List.mem_cons.mp hmem with h | h
      · subst h; simp
      · exact absurd h hnmem
    · rw [markProcessed_getD_ne st i j t hij] at hmem
      exact absurd hmem hnmem
  · intro e1 j u s d r e2 hsplit
    rcases e1 with _ | ⟨x, e1t⟩
    · simp only [List.nil_append] at hsplit
      exact absurd hsplit.symm (by simp)
    · have hx : x = Ev.run i t ∧ sevs = e1t ++ Ev.stageEv j u s d r :: e2 := by
        have h2 := hsplit
        simp only [List.cons_append, List.cons.injEq] at h2
        exact ⟨h2.1.symm, h2.2⟩
      obtain ⟨hx1, hx2⟩ := hx
      subst hx1
      have hju : (j, u) = (i, t) := hsp (j, u) (stagePairs_of_split hx2)
      have hcons2 : runPairs (Ev.run i t :: e1t) = (i, t) :: runPairs e1t := by
        simp [runPairs, List.filterMap_cons]
      rw [hju, hcons2]
      exact List.mem_cons_self _ _

/-- Prepending events preserves the invariant over a completed step. -/
theorem OutInv.seqStep {st st1 : ProcState} (pre : List Ev) (o : Out)
    (hpre : OutInv st (.ok st1 pre)) (ho : OutInv st1 o) :
    OutInv st (Out.seq pre o) := by
  match o with
  | .fuelOut => exact trivial
  | .fatal evs m => exact trivial
  | .ok st2 evs2 => exact hpre.compose ho

/-- Sequencing with a state continuation preserves the invariant. -/
theorem OutInv.andThenStep {st : ProcState} (o : Out) (f : ProcState → Out)
    (ho : OutInv st o)
    (hf : ∀ st2 evs2, o = .ok st2 evs2 → OutInv st2 (f st2)) :
    OutInv st (o.andThen f) := by
  match o with
  | .fuelOut => exact trivial
  | .fatal evs m => exact trivial
  | .ok st2 evs2 =>
    match hr : f st2 with
    | .fuelOut => simp [Out.andThen, Out.seq, hr, OutInv]
    | .fatal e3 m => simp [Out.andThen, Out.seq, hr, OutInv]
    | .ok st3 evs3 =>
      have h3 : OutInv st2 (.ok st3 evs3) := hr ▸ hf st2 evs2 rfl
      have hc := OutInv.compose ho h3
      simp only [Out.andThen, Out.seq, hr]
      exact hc

/-- One unfolding step of the element loop. -/
theorem targetLoop_cons (recur : Nat → Target → ProcState → Out) (i : Nat)
    (rule : CompiledRule) (st : ProcState) (t : Target) (ts : List Target) :
    targetLoop recur i rule st (t :: ts) =
      if t ∈ st.getD i [] then targetLoop recur i rule st ts
      else
        Out.seq (Ev.run i t :: (runStages rule.selector i t rule.stages JSVal.objNil).evs)
          (match (runStages rule.selector i t rule.stages JSVal.objNil).fatalMsg with
           | some m => .fatal [] m
           | none =>
             if updatesBody rule then
               (recur i t (markProcessed st i t)).andThen
                 (fun st2 => targetLoop recur i rule st2 ts)
             else targetLoop recur i rule (markProcessed st i t) ts) := rfl

/-- The element loop preserves the runner invariant. -/
theorem targetLoop_inv (recur : Nat → Target → ProcState → Out) (i : Nat)
    (rule : CompiledRule) (N : Nat) (hi : i < N)
    (hrec : ∀ j u st2, st2.length = N → OutInv st2 (recur j u st2)) :
    ∀ (targets : List Target) (st : ProcState), st.length = N →
      OutInv st (targetLoop recur i rule st targets) := by
  intro targets
  induction targets with
  | nil => intro st _; exact OutInv.nilStep st
  | cons t ts ih =>
    intro st hlen
    rw [targetLoop_cons]
    by_cases hmem : t ∈ st.getD i []
    · rw [if_pos hmem]
      exact ih st hlen
    · rw [if_neg hmem]
      have hstep : OutInv st (.ok (markProcessed st i t)
          (Ev.run i t :: (runStages rule.selector i t rule.stages JSVal.objNil).evs)) :=
        OutInv.freshStep st i t (by omega) hmem _
          (runStages_no_run rule.selector i t rule.stages JSVal.objNil)
          (runStages_stagePairs rule.selector i t rule.stages JSVal.objNil)
      match hf : (runStages rule.selector i t rule.stages JSVal.objNil).fatalMsg with
      | some m => exact trivial
      | none =>
        by_cases hub : updatesBody rule
        · rw [if_pos hub]
          refine OutInv.seqStep _ _ hstep (OutInv.andThenStep _ _ ?_ ?_)
          · exact hrec i t _ (by rw [markProcessed_length, hlen])
          · intro st2 evs2 heq
            have h2 : OutInv (markProcessed st i t) (.ok st2 evs2) :=
              heq ▸ hrec i t _ (by rw [markProcessed_length, hlen])
            exact ih st2 (by rw [h2.1.1, markProcessed_length, hlen])
        · rw [if_neg hub]
          refine OutInv.seqStep _ _ hstep ?_
          exact ih _ (by rw [markProcessed_length, hlen])

/-- One unfolding step of the rule loop. -/
theorem ruleLoop_cons (dom : Dom) (recur : Nat → Target → ProcState → Out)
    (limit : Option Nat) (root : Root) (i : Nat) (st : ProcState)
    (rule : CompiledRule) (rest : List CompiledRule) :
    ruleLoop dom recur limit root i st (rule :: rest) =
      if limitExceeded limit i then .ok st []
      else
        match targetsFor dom root rule with
        | .error m => .fatal [] m
        | .ok targets =>
          (targetLoop recur i rule st targets).andThen
            (fun st2 => ruleLoop dom recur limit root (i + 1) st2 rest) := rfl

/-- The rule loop preserves the runner invariant. -/
theorem ruleLoop_inv (dom : Dom) (recur : Nat → Target → ProcState → Out)
    (limit : Option Nat) (root : Root) (N : Nat)
    (hrec : ∀ j u st2, st2.length = N → OutInv st2 (recur j u st2)) :
    ∀ (rest : List CompiledRule) (i : Nat) (st : ProcState),
      st.length = N → i + rest.length ≤ N →
      OutInv st (ruleLoop dom recur limit root i st rest) := by
  intro rest
  induction rest with
  | nil => intro i st _ _; exact OutInv.nilStep st
  | cons rule rest ih =>
    intro i st hlen hbound
    rw [ruleLoop_cons]
    by_cases hlim : limitExceeded limit i = true
    · simp only [hlim, if_true]
      exact OutInv.nilStep st
    · simp only [Bool.not_eq_true] at hlim
      simp only [hlim, Bool.false_eq_true, if_false]
      match htf : targetsFor dom root rule with
      | .error m => exact trivial
      | .ok targets =>
        refine OutInv.andThenStep _ _ ?_ ?_
        · exact targetLoop_inv recur i rule N (by simp at hbound; omega) hrec targets st hlen
        · intro st2 evs2 heq
          have h1 : OutInv st (.ok st2 evs2) := by
            rw [← heq]
            exact targetLoop_inv recur i rule N (by simp at hbound; omega) hrec targets st hlen
          exact ih (i + 1) st2 (by rw [h1.1.1, hlen]) (by simp at hbound ⊢; omega)

/-- Every runner invocation preserves the invariant. -/
theorem runRulesGo_inv (dom : Dom) (rules : List CompiledRule) :
    ∀ (fuel : Nat) (limit : Option Nat) (root : Root) (st : ProcState),
      st.length = rules.length →
      OutInv st (runRulesGo dom rules fuel limit root st) := by
  intro fuel
  induction fuel with
  | zero => intro _ _ st _; exact trivial
  | succ fuel ih =>
    intro limit root st hlen
    show OutInv st (ruleLoop dom
      (fun j t st2 => runRulesGo dom rules fuel (some j) (rootOfTarget t) st2)
      limit root 0 st rules)
    exact ruleLoop_inv dom _ limit root rules.length
      (fun j u st2 hl => ih (some j) (rootOfTarget u) st2 hl) rules 0 st hlen
      (by omega)


/-! ### Inversion of the sequencing combinators -/

theorem Out.seq_eq_ok {pre : List Ev} {o : Out} {st2 : ProcState} {evs : List Ev} :
    Out.seq pre o = .ok st2 evs ↔ ∃ evs2, o = .ok st2 evs2 ∧ evs = pre ++ evs2 := by
  cases o with
  | fuelOut => simp [Out.seq]
  | fatal e m => simp [Out.seq]
  | ok st' evs' =>
    simp only [Out.seq, Out.ok.injEq]
    constructor
    · rintro ⟨rfl, rfl⟩
      exact ⟨evs', ⟨rfl, rfl⟩, rfl⟩
    · rintro ⟨evs2, ⟨rfl, rfl⟩, rfl⟩
      exact ⟨rfl, rfl⟩

theorem Out.andThen_eq_ok {o : Out} {f : ProcState → Out} {st2 : ProcState}
    {evs : List Ev} :
    o.andThen f = .ok st2 evs ↔
      ∃ st1 evs1 evs2, o = .ok st1 evs1 ∧ f st1 = .ok st2 evs2 ∧
        evs = evs1 ++ evs2 := by
  cases o with
  | fuelOut => simp [Out.andThen]
  | fatal e m => simp [Out.andThen]
  | ok st1 evs1 =>
    simp only [Out.andThen, Out.seq_eq_ok, Out.ok.injEq]
    constructor
    · rintro ⟨evs2, hf, rfl⟩
      exact ⟨st1, evs1, evs2, ⟨rfl, rfl⟩, hf, rfl⟩
    · rintro ⟨stA, evsA, evsB, ⟨rfl, rfl⟩, hf, rfl⟩
      exact ⟨evsB, hf, rfl⟩

theorem limitExceeded_mono {limit : Option Nat} {i j : Nat} (hij : i ≤ j)
    (h : limitExceeded limit i = true) : limitExceeded limit j = true := by
  cases limit with
  | none => simp [limitExceeded] at h
  | some l =>
    simp only [limitExceeded, decide_eq_true_eq] at h ⊢
    omega

/-! ### Postconditions: a completed run has processed every match -/

/-- After a completed element loop, every listed target is processed. -/
theorem targetLoop_post (recur : Nat → Target → ProcState → Out) (i : Nat)
    (rule : CompiledRule) (N : Nat) (hi : i < N)
    (hrec : ∀ j u st2, st2.length = N → OutInv st2 (recur j u st2)) :
    ∀ (targets : List Target) (st : ProcState), st.length = N →
      ∀ st2 evs, targetLoop recur i rule st targets = .ok st2 evs →
      ∀ u ∈ targets, u ∈ st2.getD i [] := by
  intro targets
  induction targets with
  | nil =>
    intro st hlen st2 evs h u hu
    simp at hu
  | cons t ts ih =>
    intro st hlen st2 evs h u hu
    rw [targetLoop_cons] at h
    by_cases hmem : t ∈ st.getD i []
    · rw [if_pos hmem] at h
      rcases List.mem_cons.mp hu with rfl | hu2
      · have hinv : OutInv st (.ok st2 evs) := by
          rw [← h]
          exact targetLoop_inv recur i rule N hi hrec ts st hlen
        exact hinv.1.2 i u hmem
      · exact ih st hlen st2 evs h u hu2
    · rw [if_neg hmem] at h
      match hf : (runStages rule.selector i t rule.stages JSVal.objNil).fatalMsg with
      | some m =>
        rw [hf] at h
        exact absurd h (by simp [Out.seq])
      | none =>
        rw [hf] at h
        rw [Out.seq_eq_ok] at h
        obtain ⟨evsI, hinner, _⟩ := h
        have hmark : t ∈ (markProcessed st i t).getD i [] := by
          rw [markProcessed_getD_self st i t (by omega)]
          exact List.mem_cons_self t _
        by_cases hub : updatesBody rule
        · rw [if_pos hub] at hinner
          rw [Out.andThen_eq_ok] at hinner
          obtain ⟨stA, evsA, evsB, hr, hcont, _⟩ := hinner
          have hA : OutInv (markProcessed st i t) (.ok stA evsA) := by
            rw [← hr]
            exact hrec i t _ (by rw [markProcessed_length, hlen])
          have hlenA : stA.length = N := by
            rw [hA.1.1, markProcessed_length, hlen]
          have hB : OutInv stA (.ok st2 evsB) := by
            rw [← hcont]
            exact targetLoop_inv recur i rule N hi hrec ts stA hlenA
          rcases List.mem_cons.mp hu with rfl | hu2
          · exact hB.1.2 i u (hA.1.2 i u hmark)
          · exact ih stA hlenA st2 evsB hcont u hu2
        · rw [if_neg hub] at hinner
          have hinner2 : targetLoop recur i rule (markProcessed st i t) ts =
              .ok st2 evsI := hinner
          rcases List.mem_cons.mp hu with heq | hu2
          · subst heq
            have hB : OutInv (markProcessed st i u) (.ok st2 evsI) := by
              rw [← hinner2]
              exact targetLoop_inv recur i rule N hi hrec ts _
                (by rw [markProcessed_length, hlen])
            exact hB.1.2 i u hmark
          · exact ih _ (by rw [markProcessed_length, hlen]) st2 evsI hinner2 u hu2

/-- After a completed rule loop, every match of every rule within the
limit is processed. -/
theorem ruleLoop_post (dom : Dom) (recur : Nat → Target → ProcState → Out)
    (limit : Option Nat) (root : Root) (N : Nat)
    (hrec : ∀ j u st2, st2.length = N → OutInv st2 (recur j u st2)) :
    ∀ (rest : List CompiledRule) (i : Nat) (st : ProcState),
      st.length = N → i + rest.length ≤ N →
      ∀ st2 evs, ruleLoop dom recur limit root i st rest = .ok st2 evs →
      ∀ k, (hk : k < rest.length) → limitExceeded limit (i + k) = false →
      ∀ tg, targetsFor dom root (rest.get ⟨k, hk⟩) = .ok tg →
      ∀ u ∈ tg, u ∈ st2.getD (i + k) [] := by
  intro rest
  induction rest with
  | nil =>
    intro i st _ _ st2 evs h k hk
    exact absurd hk (by simp)
  | cons rule rest ih =>
    intro i st hlen hbound st2 evs h k hk hlime tg htg u hu
    rw [ruleLoop_cons] at h
    by_cases hlim : limitExceeded limit i = true
    · exact absurd (limitExceeded_mono (Nat.le_add_right i k) hlim)
        (by rw [hlime]; simp)
    · simp only [Bool.not_eq_true] at hlim
      simp only [hlim, Bool.false_eq_true, if_false] at h
      match htf : targetsFor dom root rule with
      | .error m =>
        rw [htf] at h
        exact absurd h (by simp)
      | .ok targets =>
        rw [htf] at h
        rw [Out.andThen_eq_ok] at h
        obtain ⟨stA, evsA, evsB, htl, hrl, _⟩ := h
        have hA : OutInv st (.ok stA evsA) := by
          rw [← htl]
          exact targetLoop_inv recur i rule N (by simp at hbound; omega) hrec targets st hlen
        have hlenA : stA.length = N := by rw [hA.1.1, hlen]
        match k with
        | 0 =>
          have hrule : (rule :: rest).get ⟨0, hk⟩ = rule := rfl
          rw [hrule] at htg
          have htgeq : tg = targets := by
            rw [htg] at htf
            exact (Except.ok.injEq _ _).mp htf
          rw [htgeq] at hu
          have hu2 : u ∈ stA.getD i [] :=
            targetLoop_post recur i rule N (by simp at hbound; omega) hrec targets st hlen
              stA evsA htl u hu
          have hB : OutInv stA (.ok st2 evsB) := by
            rw [← hrl]
            exact ruleLoop_inv dom recur limit root N hrec rest (i + 1) stA hlenA
              (by simp at hbound; omega)
          have := hB.1.2 i u hu2
          simpa using this
        | k + 1 =>
          have hidx : i + (k + 1) = (i + 1) + k := by omega
          rw [hidx]
          have hget : (rule :: rest).get ⟨k + 1, hk⟩ = rest.get ⟨k, by simpa using hk⟩ := rfl
          rw [hget] at htg
          exact ih (i + 1) stA hlenA (by simp at hbound; omega) st2 evsB hrl k
            (by simpa using hk) (by rw [← hidx]; exact hlime) tg htg u hu

/-- After a completed runner invocation, every match of every rule
within the limit is processed. -/
theorem runRulesGo_post (dom : Dom) (rules : List CompiledRule) (fuel : Nat)
    (limit : Option Nat) (root : Root) (st st2 : ProcState) (evs : List Ev)
    (hlen : st.length = rules.length)
    (h : runRulesGo dom rules fuel limit root st = .ok st2 evs) :
    ∀ k, (hk : k < rules.length) → limitExceeded limit k = false →
    ∀ tg, targetsFor dom root (rules.get ⟨k, hk⟩) = .ok tg →
    ∀ u ∈ tg, u ∈ st2.getD k [] := by
  match fuel with
  | 0 => exact absurd h (by simp [runRulesGo])
  | fuel + 1 =>
    intro k hk hlime tg htg u hu
    have := ruleLoop_post dom
      (fun j t st' => runRulesGo dom rules fuel (some j) (rootOfTarget t) st')
      limit root rules.length
      (fun j u2 st' hl => runRulesGo_inv dom rules fuel (some j) (rootOfTarget u2) st' hl)
      rules 0 st hlen (by omega) st2 evs h k hk (by simpa using hlime) tg
      (by simpa using htg) u hu
    simpa using this

/-! ### An all-processed state makes the runner a no-op -/

theorem targetLoop_skip (recur : Nat → Target → ProcState → Out) (i : Nat)
    (rule : CompiledRule) :
    ∀ (targets : List Target) (st : ProcState),
      (∀ t ∈ targets, t ∈ st.getD i []) →
      targetLoop recur i rule st targets = .ok st [] := by
  intro targets
  induction targets with
  | nil => intro st _; rfl
  | cons t ts ih =>
    intro st hall
    rw [targetLoop_cons, if_pos (hall t (by simp))]
    exact ih st (fun u hu => hall u (by simp [hu]))

/-- With a non-null subtree, the target set always resolves. -/
theorem targetsFor_not_null (dom : Dom) (root : Root) (r : CompiledRule)
    (hroot : root ≠ .nullRoot) : ∃ tg, targetsFor dom root r = .ok tg := by
  unfold targetsFor
  by_cases hs : r.selector = "script"
  · rw [if_pos hs]
    exact ⟨_, rfl⟩
  · rw [if_neg hs]
    match root with
    | .doc => exact ⟨_, rfl⟩
    | .elem e => exact ⟨_, rfl⟩
    | .nullRoot => exact absurd rfl hroot

theorem ruleLoop_skip (dom : Dom) (recur : Nat → Target → ProcState → Out)
    (limit : Option Nat) (root : Root) (hroot : root ≠ .nullRoot) :
    ∀ (rest : List CompiledRule) (i : Nat) (st : ProcState),
      (∀ k, (hk : k < rest.length) →
        ∀ tg, targetsFor dom root (rest.get ⟨k, hk⟩) = .ok tg →
        ∀ u ∈ tg, u ∈ st.getD (i + k) []) →
      ruleLoop dom recur limit root i st rest = .ok st [] := by
  intro rest
  induction rest with
  | nil => intro i st _; rfl
  | cons rule rest ih =>
    intro i st hall
    rw [ruleLoop_cons]
    by_cases hlim : limitExceeded limit i = true
    · simp [hlim]
    · simp only [Bool.not_eq_true] at hlim
      simp only [hlim, Bool.false_eq_true, if_false]
      obtain ⟨tg, htg⟩ := targetsFor_not_null dom root rule hroot
      rw [htg]
      have h0 : targetLoop recur i rule st tg = .ok st [] := by
        apply targetLoop_skip recur i rule tg st
        intro u hu
        have := hall 0 (by simp) tg (by simpa using htg) u hu
        simpa using this
      show (targetLoop recur i rule st tg).andThen
          (fun st2 => ruleLoop dom recur limit root (i + 1) st2 rest) = .ok st []
      rw [h0]
      show Out.seq [] (ruleLoop dom recur limit root (i + 1) st rest) = .ok st []
      rw [ih (i + 1) st ?_]
      · rfl
      · intro k hk tg2 htg2 u hu
        have hidx : (i + 1) + k = i + (k + 1) := by omega
        rw [hidx]
        exact hall (k + 1) (by simpa using Nat.succ_lt_succ hk) tg2 htg2 u hu

/-- A second pass over the state left by a completed full pass does
nothing: same state, no events. -/
theorem runRulesGo_secondPass (dom : Dom) (rules : List CompiledRule)
    (fuel1 fuel2 : Nat) (st0 st1 : ProcState) (evs : List Ev)
    (hlen : st0.length = rules.length)
    (h1 : runRulesGo dom rules fuel1 none .doc st0 = .ok st1 evs) :
    runRulesGo dom rules (fuel2 + 1) none .doc st1 = .ok st1 [] := by
  show ruleLoop dom
    (fun j t st2 => runRulesGo dom rules fuel2 (some j) (rootOfTarget t) st2)
    none .doc 0 st1 rules = .ok st1 []
  apply ruleLoop_skip dom _ none .doc (by simp) rules 0 st1
  intro k hk tg htg u hu
  have := runRulesGo_post dom rules fuel1 none .doc st0 st1 evs hlen h1 k hk
    (by simp [limitExceeded]) tg htg u hu
  simpa using this

/-- C3: running the Rule Runner a second time over the same compiled
rules and unchanged (static) DOM executes nothing on the second pass:
the second run returns the same state with an empty event trace; after
the first pass every (rule, target) pair that ran is in that rule's
processed set; and a pair already processed at the start of a pass is
never run by it. -/
theorem C3_second_pass_idempotent (dom : Dom) (rules : List CompiledRule)
    (fuel1 : Nat) (st0 st1 : ProcState) (evs : List Ev)
    (hlen : st0.length = rules.length)
    (h1 : runRulesGo dom rules fuel1 none .doc st0 = .ok st1 evs) :
    (∀ fuel2, runRulesGo dom rules (fuel2 + 1) none .doc st1 = .ok st1 []) ∧
    (∀ p ∈ runPairs evs, p.2 ∈ st1.getD p.1 []) ∧
    (∀ j t, t ∈ st0.getD j [] → (j, t) ∉ runPairs evs) := by
  have hinv := runRulesGo_inv dom rules fuel1 none .doc st0 hlen
  rw [h1] at hinv
  refine ⟨fun fuel2 => runRulesGo_secondPass dom rules fuel1 fuel2 st0 st1 evs hlen h1,
    fun p hp => (hinv.2.2.1 p hp).1,
    fun j t hmem hp => (hinv.2.2.1 (j, t) hp).2 hmem⟩

/-- C3 witness: the two-element nested DOM: the first full pass
processes both targets; the second pass is a no-op with zero events. -/
theorem C3_second_pass_idempotent_witness :
    runRulesGo dom4 [rule4] 1 none .doc [[some 2, some 1]] =
      .ok [[some 2, some 1]] [] ∧
    (0, some 1) ∈ runPairs
      [Ev.run 0 (some 1),
       Ev.stageEv 0 (some 1) .body JSVal.objNil (.ok JSVal.undef),
       Ev.run 0 (some 2),
       Ev.stageEv 0 (some 2) .body JSVal.objNil (.ok JSVal.undef)] ∧
    some 1 ∈ ([[some 2, some 1]] : ProcState).getD 0 [] := by
  have h := C3_second_pass_idempotent dom4 [rule4] 3 [[]] [[some 2, some 1]]
    [Ev.run 0 (some 1),
     Ev.stageEv 0 (some 1) .body JSVal.objNil (.ok JSVal.undef),
     Ev.run 0 (some 2),
     Ev.stageEv 0 (some 2) .body JSVal.objNil (.ok JSVal.undef)]
    (by decide) (by decide)
  refine ⟨h.1 0, by decide, ?_⟩
  exact h.2.1 (0, some 1) (by decide)

/-- C10: in any completed runner invocation, a (rule, target) pair is
added to the processed set before any of its stages execute (every
stage event is preceded by that pair's start event); every started
pair — including one whose stage chain aborted on a user-code error —
was fresh, ends permanently in the processed set, and is never started
again (the started pairs are duplicate-free); and a pair processed
before the pass is never re-executed by it. -/
theorem C10_processed_before_stages (dom : Dom) (rules : List CompiledRule)
    (fuel : Nat) (limit : Option Nat) (root : Root) (st st2 : ProcState)
    (evs : List Ev)
    (hlen : st.length = rules.length)
    (h : runRulesGo dom rules fuel limit root st = .ok st2 evs) :
    (runPairs evs).Nodup ∧
    (∀ p ∈ runPairs evs, p.2 ∈ st2.getD p.1 [] ∧ p.2 ∉ st.getD p.1 []) ∧
    (∀ j t, t ∈ st.getD j [] → (j, t) ∉ runPairs evs) ∧
    (∀ e1 j u s d r e2, evs = e1 ++ Ev.stageEv j u s d r :: e2 →
      (j, u) ∈ runPairs e1) := by
  have hinv := runRulesGo_inv dom rules fuel limit root st hlen
  rw [h] at hinv
  exact ⟨hinv.2.1, hinv.2.2.1,
    fun j t hmem hp => (hinv.2.2.1 (j, t) hp).2 hmem,
    hinv.2.2.2.2⟩

/-- C10 witness: the rule whose data stage throws: its target is
started once, stays processed, and the error-aborted chain's stage
event is preceded by the start event. -/
theorem C10_processed_before_stages_witness :
    (runPairs [Ev.run 0 (some 1),
      Ev.stageEv 0 (some 1) .data JSVal.objNil (.errCjss ("boom")),
      Ev.errLog ("boom") ("b") (some 1) .data (some ("x")) ("b")]).Nodup ∧
    some 1 ∈ ([[some 1]] : ProcState).getD 0 [] := by
  have h := C10_processed_before_stages dom5 [rule5] 2 none .doc [[]] [[some 1]]
    [Ev.run 0 (some 1),
     Ev.stageEv 0 (some 1) .data JSVal.objNil (.errCjss ("boom")),
     Ev.errLog ("boom") ("b") (some 1) .data (some ("x")) ("b")]
    (by decide) (by decide)
  refine ⟨h.1, ?_⟩
  exact (h.2.1 (0, some 1) (by decide)).1


/-! ### Which pairs can start: they always come from a target set -/

/-- Every pair the element loop starts satisfies `P`, provided the
listed targets and all recursively started pairs do. -/
theorem targetLoop_pairsP (P : Nat × Target → Prop)
    (recur : Nat → Target → ProcState → Out) (i : Nat) (rule : CompiledRule)
    (hrecP : ∀ j u st' st2 evs2, recur j u st' = .ok st2 evs2 →
      ∀ p ∈ runPairs evs2, P p) :
    ∀ (targets : List Target) (st : ProcState),
      (∀ t ∈ targets, P (i, t)) →
      ∀ st2 evs, targetLoop recur i rule st targets = .ok st2 evs →
      ∀ p ∈ runPairs evs, P p := by
  intro targets
  induction targets with
  | nil =>
    intro st _ st2 evs h p hp
    have : evs = [] := ((Out.ok.injEq _ _ _ _).mp h).2.symm
    rw [this] at hp
    simp [runPairs] at hp
  | cons t ts ih =>
    intro st hT st2 evs h p hp
    rw [targetLoop_cons] at h
    by_cases hmem : t ∈ st.getD i []
    · rw [if_pos hmem] at h
      exact ih st (fun u hu => hT u (by simp [hu])) st2 evs h p hp
    · rw [if_neg hmem] at h
      match hf : (runStages rule.selector i t rule.stages JSVal.objNil).fatalMsg with
      | some m =>
        rw [hf] at h
        exact absurd h (by simp [Out.seq])
      | none =>
        rw [hf] at h
        rw [Out.seq_eq_ok] at h
        obtain ⟨evsI, hinner, hevs⟩ := h
        have hhead : runPairs (Ev.run i t ::
            (runStages rule.selector i t rule.stages JSVal.objNil).evs) = [(i, t)] := by
          have hcons : runPairs (Ev.run i t ::
              (runStages rule.selector i t rule.stages JSVal.objNil).evs) =
              (i, t) :: runPairs (runStages rule.selector i t rule.stages JSVal.objNil).evs := by
            simp [runPairs, List.filterMap_cons]
          rw [hcons, runStages_no_run]
        by_cases hub : updatesBody rule
        · rw [if_pos hub] at hinner
          rw [Out.andThen_eq_ok] at hinner
          obtain ⟨stA, evsA, evsB, hr, hcont, hsplit⟩ := hinner
          rw [hevs, hsplit, runPairs_append, hhead, runPairs_append] at hp
          rcases List.mem_append.mp hp with h1 | h1
          · simp only [List.mem_singleton] at h1
            subst h1
            exact hT t (by simp)
          · rcases List.mem_append.mp h1 with h2 | h2
            · exact hrecP i t _ stA evsA hr p h2
            · exact ih stA (fun u hu => hT u (by simp [hu])) st2 evsB hcont p h2
        · rw [if_neg hub] at hinner
          have hinner2 : targetLoop recur i rule (markProcessed st i t) ts =
              .ok st2 evsI := hinner
          rw [hevs, runPairs_append, hhead] at hp
          rcases List.mem_append.mp hp with h1 | h1
          · simp only [List.mem_singleton] at h1
            subst h1
            exact hT t (by simp)
          · exact ih _ (fun u hu => hT u (by simp [hu])) st2 evsI hinner2 p h1

/-- Every pair the rule loop starts satisfies `P`, provided every
target set in range and all recursively started pairs do. -/
theorem ruleLoop_pairsP (P : Nat × Target → Prop) (dom : Dom)
    (recur : Nat → Target → ProcState → Out) (limit : Option Nat) (root : Root)
    (hrecP : ∀ j u st' st2 evs2, recur j u st' = .ok st2 evs2 →
      ∀ p ∈ runPairs evs2, P p) :
    ∀ (rest : List CompiledRule) (i : Nat) (st : ProcState),
      (∀ k, (hk : k < rest.length) →
        ∀ tg, targetsFor dom root (rest.get ⟨k, hk⟩) = .ok tg →
        ∀ t ∈ tg, P (i + k, t)) →
      ∀ st2 evs, ruleLoop dom recur limit root i st rest = .ok st2 evs →
      ∀ p ∈ runPairs evs, P p := by
  intro rest
  induction rest with
  | nil =>
    intro i st _ st2 evs h p hp
    have : evs = [] := ((Out.ok.injEq _ _ _ _).mp h).2.symm
    rw [this] at hp
    simp [runPairs] at hp
  | cons rule rest ih =>
    intro i st hT st2 evs h p hp
    rw [ruleLoop_cons] at h
    by_cases hlim : limitExceeded limit i = true
    · simp only [hlim, if_true] at h
      have : evs = [] := ((Out.ok.injEq _ _ _ _).mp h).2.symm
      rw [this] at hp
      simp [runPairs] at hp
    · simp only [Bool.not_eq_true] at hlim
      simp only [hlim, Bool.false_eq_true, if_false] at h
      match htf : targetsFor dom root rule with
      | .error m =>
        rw [htf] at h
        exact absurd h (by simp)
      | .ok targets =>
        rw [htf] at h
        rw [Out.andThen_eq_ok] at h
        obtain ⟨stA, evsA, evsB, htl, hrl, hsplit⟩ := h
        rw [hsplit, runPairs_append] at hp
        rcases List.mem_append.mp hp with h1 | h1
        · refine targetLoop_pairsP P recur i rule hrecP targets st ?_ stA evsA htl p h1
          intro u hu
          have := hT 0 (by simp) targets (by simpa using htf) u hu
          simpa using this
        · refine ih (i + 1) stA ?_ st2 evsB hrl p h1
          intro k hk tg htg u hu
          have hidx : (i + 1) + k = i + (k + 1) := by omega
          rw [hidx]
          exact hT (k + 1) (by simpa using Nat.succ_lt_succ hk) tg htg u hu


/-- Every pair started by the runner comes from a target-set query of
its own rule. -/
theorem runRulesGo_pairsFromQuery (dom : Dom) (rules : List CompiledRule) :
    ∀ (fuel : Nat) (limit : Option Nat) (root : Root) (st st2 : ProcState)
      (evs : List Ev),
      runRulesGo dom rules fuel limit root st = .ok st2 evs →
      ∀ p ∈ runPairs evs, pairFromQuery dom rules p := by
  intro fuel
  induction fuel with
  | zero =>
    intro limit root st st2 evs h
    exact absurd h (by simp [runRulesGo])
  | succ fuel ih =>
    intro limit root st st2 evs h p hp
    refine ruleLoop_pairsP (pairFromQuery dom rules) dom _ limit root ?_ rules 0 st ?_
      st2 evs h p hp
    · intro j u st' st2' evs2 hr q hq
      exact ih (some j) (rootOfTarget u) st' st2' evs2 hr q hq
    · intro k hk tg htg t ht
      refine ⟨root, tg, by simpa using hk, ?_, ht⟩
      simpa using htg

/-- The literal `script` selector always yields the single synthetic
no-element target. -/
theorem targetsFor_script (dom : Dom) (root : Root) (r : CompiledRule)
    (h : r.selector = "script") : targetsFor dom root r = .ok [none] := by
  unfold targetsFor
  rw [if_pos h]

theorem initSt_getD (rules : List CompiledRule) (k : Nat) :
    (initSt rules).getD k [] = [] := by
  unfold initSt
  induction rules.length generalizing k with
  | zero => cases k <;> rfl
  | succ n ihn =>
    cases k with
    | zero => rfl
    | succ k2 =>
      show (List.replicate n ([] : List Target)).getD k2 [] = []
      exact ihn k2

theorem countPair_eq_one {p : Nat × Target} {l : List (Nat × Target)}
    (hnd : l.Nodup) (hm : p ∈ l) : countPair p l = 1 := by
  induction l with
  | nil => simp at hm
  | cons a l ih =>
    rcases List.mem_cons.mp hm with heq | hm2
    · have hnotin : p ∉ l := by
        rw [heq]
        exact (List.nodup_cons.mp hnd).1
      have hfe : l.filter (fun q => decide (q = p)) = [] := by
        rw [List.filter_eq_nil_iff]
        intro q hq
        simp only [decide_eq_true_eq]
        intro hqa
        exact hnotin (hqa ▸ hq)
      unfold countPair
      rw [List.filter_cons, if_pos (by simp [heq.symm]), hfe]
      rfl
    · have hne : a ≠ p := by
        intro hap
        exact (List.nodup_cons.mp hnd).1 (hap ▸ hm2)
      have := ih (List.nodup_cons.mp hnd).2 hm2
      unfold countPair at this ⊢
      rw [List.filter_cons]
      simp only [decide_eq_true_eq]
      rw [if_neg (by simpa using hne)]
      exact this

/-- C7: a compiled rule whose selector is literally `script` gets the
single synthetic no-element target (regardless of what the DOM query
would return for the string `script`), and one full render pass from a
fresh state starts its chain exactly once, always against that
no-element target; every other selector's target set is exactly the
elements matching within the queried subtree. -/
theorem C7_script_single_target (dom : Dom) (rules : List CompiledRule)
    (fuel : Nat) (st2 : ProcState) (evs : List Ev) (k : Nat) (hk : k < rules.length)
    (hsel : (rules.get ⟨k, hk⟩).selector = "script")
    (h : runRulesGo dom rules fuel none .doc (initSt rules) = .ok st2 evs) :
    (∀ root2, targetsFor dom root2 (rules.get ⟨k, hk⟩) = .ok [none]) ∧
    countPair (k, none) (runPairs evs) = 1 ∧
    (∀ t, (k, t) ∈ runPairs evs → t = none) ∧
    (∀ r2 e, r2.selector ≠ "script" →
      targetsFor dom (.elem e) r2 = .ok ((dom.query (some e) r2.selector).map some) ∧
      targetsFor dom .doc r2 = .ok ((dom.query none r2.selector).map some)) := by
  have hlen : (initSt rules).length = rules.length := by simp [initSt]
  have hinv := runRulesGo_inv dom rules fuel none .doc (initSt rules) hlen
  rw [h] at hinv
  have hqt : ∀ t, (k, t) ∈ runPairs evs → t = none := by
    intro t hp
    obtain ⟨root2, tg, hk2, htg, htm⟩ :=
      runRulesGo_pairsFromQuery dom rules fuel none .doc (initSt rules) st2 evs h
        (k, t) hp
    rw [targetsFor_script dom root2 _ hsel] at htg
    have : tg = [none] := ((Except.ok.injEq _ _).mp htg).symm
    rw [this] at htm
    simpa using htm
  have hmem : (k, none) ∈ runPairs evs := by
    have hproc : none ∈ st2.getD k [] :=
      runRulesGo_post dom rules fuel none .doc (initSt rules) st2 evs hlen h k hk
        (by simp [limitExceeded]) [none] (targetsFor_script dom .doc _ hsel) none
        (by simp)
    exact hinv.2.2.2.1 k none hproc (by rw [initSt_getD]; simp)
  refine ⟨fun root2 => targetsFor_script dom root2 _ hsel, ?_, hqt, ?_⟩
  · exact countPair_eq_one hinv.2.1 hmem
  · intro r2 e hs
    constructor
    · unfold targetsFor
      rw [if_neg hs]
    · unfold targetsFor
      rw [if_neg hs]


/-- C7 witness: a `script`-selector rule in a DOM whose query would
return element 7 for the string `script`: one pass starts the rule
exactly once, against the synthetic no-element target. -/
theorem C7_script_single_target_witness :
    countPair (0, none) (runPairs [Ev.run 0 none,
      Ev.stageEv 0 none .script JSVal.objNil (.ok JSVal.undef)]) = 1 ∧
    targetsFor domS .doc ruleS = .ok [none] ∧
    domS.query none ("script") = [7] := by
  have h := C7_script_single_target domS [ruleS] 1 [[none]]
    [Ev.run 0 none, Ev.stageEv 0 none .script JSVal.objNil (.ok JSVal.undef)]
    0 (by decide) (by decide) (by decide)
  exact ⟨h.2.1, h.1 .doc, by decide⟩

/-! ### C5: when does the re-entrant call happen? -/

/-- Without a body stage in the compiled stage list, the element loop
never consults the re-entrant runner at all. -/
theorem targetLoop_no_body_no_recursion (recur1 recur2 : Nat → Target → ProcState → Out)
    (i : Nat) (rule : CompiledRule) (hub : updatesBody rule = false) :
    ∀ (targets : List Target) (st : ProcState),
      targetLoop recur1 i rule st targets = targetLoop recur2 i rule st targets := by
  intro targets
  induction targets with
  | nil => intro st; rfl
  | cons t ts ih =>
    intro st
    rw [targetLoop_cons, targetLoop_cons]
    by_cases hmem : t ∈ st.getD i []
    · rw [if_pos hmem, if_pos hmem]
      exact ih st
    · rw [if_neg hmem, if_neg hmem]
      match hf : (runStages rule.selector i t rule.stages JSVal.objNil).fatalMsg with
      | some m => rfl
      | none =>
        rw [if_neg (by simp [hub]), if_neg (by simp [hub])]
        rw [ih (markProcessed st i t)]

/-- With a body stage present, the re-entrant runner is invoked for a
fresh target as soon as the (possibly aborted) stage chain finishes
without a fatal error — with exactly the current rule index as the new
ceiling and the current target as the new subtree; the probe
continuation observes the call. -/
theorem targetLoop_body_recursion_probe (recur : Nat → Target → ProcState → Out)
    (i : Nat) (rule : CompiledRule) (t : Target) (ts : List Target) (st : ProcState)
    (m : String)
    (hub : updatesBody rule = true)
    (hfresh : t ∉ st.getD i [])
    (hnf : (runStages rule.selector i t rule.stages JSVal.objNil).fatalMsg = none)
    (hprobe : recur i t (markProcessed st i t) = .fatal [] m) :
    targetLoop recur i rule st (t :: ts) =
      .fatal (Ev.run i t :: (runStages rule.selector i t rule.stages JSVal.objNil).evs)
        m := by
  rw [targetLoop_cons, if_neg hfresh, hnf]
  rw [if_pos hub, hprobe]
  simp [Out.andThen, Out.seq]

/-- C5 (amended): the Rule Runner performs the recursive re-run — same
full rule sequence restricted to indices 0..i inclusive, scoped to the
fresh target's subtree — exactly when the rule's compiled stage list
CONTAINS a body stage, whether or not the body stage (or any stage)
actually ran for this target: without a body stage the re-entrant
runner is never consulted; with one, it is invoked with ceiling i and
the target as subtree whenever the chain ends without a fatal error,
even if a user-code error aborted the chain before the body stage.
Consequently a completed re-entrant run with ceiling i processes every
element of the subtree matching a rule of index at most i. -/
theorem C5_body_recursion_amended :
    (∀ (recur1 recur2 : Nat → Target → ProcState → Out) (i : Nat)
       (rule : CompiledRule), updatesBody rule = false →
       ∀ targets st, targetLoop recur1 i rule st targets =
         targetLoop recur2 i rule st targets) ∧
    (∀ (recur : Nat → Target → ProcState → Out) (i : Nat) (rule : CompiledRule)
       (t : Target) (ts : List Target) (st : ProcState) (m : String),
       updatesBody rule = true → t ∉ st.getD i [] →
       (runStages rule.selector i t rule.stages JSVal.objNil).fatalMsg = none →
       recur i t (markProcessed st i t) = .fatal [] m →
       targetLoop recur i rule st (t :: ts) =
         .fatal (Ev.run i t ::
           (runStages rule.selector i t rule.stages JSVal.objNil).evs) m) ∧
    (∀ (dom : Dom) (rules : List CompiledRule) (fuel i : Nat) (root : Root)
       (st st2 : ProcState) (evs : List Ev), st.length = rules.length →
       runRulesGo dom rules fuel (some i) root st = .ok st2 evs →
       ∀ k, (hk : k < rules.length) → k ≤ i →
       ∀ tg, targetsFor dom root (rules.get ⟨k, hk⟩) = .ok tg →
       ∀ u ∈ tg, u ∈ st2.getD k []) := by
  refine ⟨targetLoop_no_body_no_recursion, targetLoop_body_recursion_probe, ?_⟩
  intro dom rules fuel i root st st2 evs hlen h k hk hki tg htg u hu
  exact runRulesGo_post dom rules fuel (some i) root st st2 evs hlen h k hk
    (by simp only [limitExceeded, decide_eq_false_iff_not]; omega) tg htg u hu

/-- C5 counterexample: rule5 has a body stage, but its data stage
throws a user-code error, so the body stage never runs (the fuel-2
trace contains no body-stage event).  The claim as stated then demands
no recursive re-run for this target — yet the runner still re-enters:
with a nesting budget of 1 (enough for a pass with no re-entry) the
run exhausts its budget, because the recursion is keyed on the stage
LIST containing a body stage, not on the body stage having run. -/
theorem C5_counterexample :
    runRulesGo dom5 [rule5] 1 none .doc [[]] = .fuelOut ∧
    runRulesGo dom5 [rule5] 2 none .doc [[]] = .ok [[some 1]]
      [Ev.run 0 (some 1),
       Ev.stageEv 0 (some 1) .data JSVal.objNil (.errCjss ("boom")),
       Ev.errLog ("boom") ("b") (some 1) .data (some ("x")) ("b")] ∧
    hasBodyStageEv
      [Ev.run 0 (some 1),
       Ev.stageEv 0 (some 1) .data JSVal.objNil (.errCjss ("boom")),
       Ev.errLog ("boom") ("b") (some 1) .data (some ("x")) ("b")] = false := by
  exact ⟨by decide, by decide, by decide⟩

/-- C5 witness: the amended theorem at concrete inputs: no recursion
without a body stage; the probe observes the re-entrant call for rule5
although its chain aborted before the body stage; and a completed
re-entrant run over element 1's subtree processes the nested match. -/
theorem C5_body_recursion_amended_witness :
    targetLoop (fun _ _ _ => Out.fuelOut) 0 ruleC [[]] [some 1] =
      targetLoop (fun _ _ _ => Out.fatal [] ("X")) 0 ruleC [[]] [some 1] ∧
    targetLoop (fun _ _ _ => Out.fatal [] ("PROBE")) 0 rule5 [[]] [some 1] =
      .fatal (Ev.run 0 (some 1) ::
        (runStages ("b") 0 (some 1) rule5.stages JSVal.objNil).evs) ("PROBE") ∧
    some 2 ∈ ([[some 2]] : ProcState).getD 0 [] := by
  refine ⟨?_, ?_, ?_⟩
  · exact C5_body_recursion_amended.1 _ _ 0 ruleC (by decide) [some 1] [[]]
  · exact C5_body_recursion_amended.2.1 _ 0 rule5 (some 1) [] [[]] ("PROBE")
      (by decide) (by decide) (by decide) rfl
  · exact C5_body_recursion_amended.2.2 dom4 [rule4] 2 0 (.elem 1) [[]] [[some 2]]
      [Ev.run 0 (some 2), Ev.stageEv 0 (some 2) .body JSVal.objNil (.ok JSVal.undef)]
      (by decide) (by decide) 0 (by decide) (by decide) [some 2] rfl
      (some 2) (by decide)


/-! ### C6: error handling during stage execution -/

/-- A stage whose renderer throws a CJSSError: one stage event, one
contextual error log, the loop breaks, no fatal error. -/
theorem runStages_cons_cjss (sel : String) (i : Nat) (t : Target) (s : RStage)
    (rest : List RStage) (d : JSVal) (m : String)
    (h : s.run t d = .errCjss m) :
    runStages sel i t (s :: rest) d =
      ⟨[Ev.stageEv i t s.stage d (.errCjss m),
        Ev.errLog m sel t s.stage s.mode s.body], d, true, none⟩ := by
  unfold runStages
  rw [h]

/-- A stage whose renderer throws a non-CJSS error: one stage event,
no log, and the error is recorded as fatal. -/
theorem runStages_cons_other (sel : String) (i : Nat) (t : Target) (s : RStage)
    (rest : List RStage) (d : JSVal) (m : String)
    (h : s.run t d = .errOther m) :
    runStages sel i t (s :: rest) d =
      ⟨[Ev.stageEv i t s.stage d (.errOther m)], d, false, some m⟩ := by
  unfold runStages
  rw [h]

/-- A stage whose renderer returns a value: one stage event, then the
rest of the chain with the updated data. -/
theorem runStages_cons_ok (sel : String) (i : Nat) (t : Target) (s : RStage)
    (rest : List RStage) (d : JSVal) (v : JSVal)
    (h : s.run t d = .ok v) :
    runStages sel i t (s :: rest) d =
      ⟨Ev.stageEv i t s.stage d (.ok v) ::
         (runStages sel i t rest (if v.truthy then v else d)).evs,
       (runStages sel i t rest (if v.truthy then v else d)).dataOut,
       (runStages sel i t rest (if v.truthy then v else d)).aborted,
       (runStages sel i t rest (if v.truthy then v else d)).fatalMsg⟩ := by
  conv_lhs => unfold runStages
  rw [h]

/-- The stage loop splits at any point where the first part ran to
completion without aborting. -/
theorem runStages_append (sel : String) (i : Nat) (t : Target) :
    ∀ (pre post : List RStage) (d : JSVal),
      (runStages sel i t pre d).aborted = false →
      (runStages sel i t pre d).fatalMsg = none →
      runStages sel i t (pre ++ post) d =
        ⟨(runStages sel i t pre d).evs ++
           (runStages sel i t post (runStages sel i t pre d).dataOut).evs,
         (runStages sel i t post (runStages sel i t pre d).dataOut).dataOut,
         (runStages sel i t post (runStages sel i t pre d).dataOut).aborted,
         (runStages sel i t post (runStages sel i t pre d).dataOut).fatalMsg⟩ := by
  intro pre
  induction pre with
  | nil =>
    intro post d _ _
    simp [runStages]
  | cons s pre ih =>
    intro post d hab hf
    match hr : s.run t d with
    | .ok v =>
      have hab2 : (runStages sel i t pre (if v.truthy then v else d)).aborted = false := by
        have h2 := hab
        rw [runStages_cons_ok sel i t s pre d v hr] at h2
        exact h2
      have hf2 : (runStages sel i t pre (if v.truthy then v else d)).fatalMsg = none := by
        have h2 := hf
        rw [runStages_cons_ok sel i t s pre d v hr] at h2
        exact h2
      have hca : (s :: pre) ++ post = s :: (pre ++ post) := rfl
      rw [hca, runStages_cons_ok sel i t s (pre ++ post) d v hr,
        ih post _ hab2 hf2, runStages_cons_ok sel i t s pre d v hr]
      simp
    | .errCjss m =>
      have h2 := hab
      rw [runStages_cons_cjss sel i t s pre d m hr] at h2
      exact absurd h2 (by simp)
    | .errOther m =>
      have h2 := hf
      rw [runStages_cons_other sel i t s pre d m hr] at h2
      exact absurd h2 (by simp)

/-- C6: when a stage's renderer throws a user-code error for one
target, the runner logs it with full context (selector, target, stage,
mode, body) and aborts only the remaining stages for that target
(later stages contribute no events); a non-CJSS error is recorded
fatal, propagates through the element loop, the rule loop and the
runner uncaught, terminating the pass; and despite any user-code
aborts a completed pass still processes every other matched target and
rule within the limit. -/
theorem C6_stage_error_handling :
    (∀ (sel : String) (i : Nat) (t : Target) (pre : List RStage) (s : RStage)
       (post : List RStage) (d : JSVal) (m : String),
       (runStages sel i t pre d).aborted = false →
       (runStages sel i t pre d).fatalMsg = none →
       s.run t (runStages sel i t pre d).dataOut = .errCjss m →
       runStages sel i t (pre ++ s :: post) d =
         ⟨(runStages sel i t pre d).evs ++
            [Ev.stageEv i t s.stage (runStages sel i t pre d).dataOut (.errCjss m),
             Ev.errLog m sel t s.stage s.mode s.body],
          (runStages sel i t pre d).dataOut, true, none⟩) ∧
    (∀ (sel : String) (i : Nat) (t : Target) (pre : List RStage) (s : RStage)
       (post : List RStage) (d : JSVal) (m : String),
       (runStages sel i t pre d).aborted = false →
       (runStages sel i t pre d).fatalMsg = none →
       s.run t (runStages sel i t pre d).dataOut = .errOther m →
       runStages sel i t (pre ++ s :: post) d =
         ⟨(runStages sel i t pre d).evs ++
            [Ev.stageEv i t s.stage (runStages sel i t pre d).dataOut (.errOther m)],
          (runStages sel i t pre d).dataOut, false, some m⟩) ∧
    (∀ (recur : Nat → Target → ProcState → Out) (i : Nat) (rule : CompiledRule)
       (st : ProcState) (t : Target) (ts : List Target) (m : String),
       t ∉ st.getD i [] →
       (runStages rule.selector i t rule.stages JSVal.objNil).fatalMsg = some m →
       targetLoop recur i rule st (t :: ts) =
         .fatal (Ev.run i t ::
           (runStages rule.selector i t rule.stages JSVal.objNil).evs) m) ∧
    (∀ (dom : Dom) (recur : Nat → Target → ProcState → Out) (limit : Option Nat)
       (root : Root) (i : Nat) (st : ProcState) (rule : CompiledRule)
       (rest : List CompiledRule) (targets : List Target) (m : String)
       (evs : List Ev),
       limitExceeded limit i = false →
       targetsFor dom root rule = .ok targets →
       targetLoop recur i rule st targets = .fatal evs m →
       ruleLoop dom recur limit root i st (rule :: rest) = .fatal evs m) ∧
    (∀ (dom : Dom) (rules : List CompiledRule) (fuel : Nat) (limit : Option Nat)
       (root : Root) (st : ProcState) (evs : List Ev) (m : String),
       ruleLoop dom
         (fun j t st2 => runRulesGo dom rules fuel (some j) (rootOfTarget t) st2)
         limit root 0 st rules = .fatal evs m →
       runRulesGo dom rules (fuel + 1) limit root st = .fatal evs m) ∧
    (∀ (dom : Dom) (rules : List CompiledRule) (fuel : Nat) (limit : Option Nat)
       (root : Root) (st st2 : ProcState) (evs : List Ev),
       st.length = rules.length →
       runRulesGo dom rules fuel limit root st = .ok st2 evs →
       ∀ k, (hk : k < rules.length) → limitExceeded limit k = false →
       ∀ tg, targetsFor dom root (rules.get ⟨k, hk⟩) = .ok tg →
       ∀ u ∈ tg, u ∈ st2.getD k []) := by
  refine ⟨?_, ?_, ?_, ?_, ?_, ?_⟩
  · intro sel i t pre s post d m hab hf hrun
    rw [runStages_append sel i t pre (s :: post) d hab hf,
      runStages_cons_cjss sel i t s post _ m hrun]
  · intro sel i t pre s post d m hab hf hrun
    rw [runStages_append sel i t pre (s :: post) d hab hf,
      runStages_cons_other sel i t s post _ m hrun]
  · intro recur i rule st t ts m hfresh hfat
    rw [targetLoop_cons, if_neg hfresh, hfat]
    simp [Out.seq]
  · intro dom recur limit root i st rule rest targets m evs hlim htf htl
    rw [ruleLoop_cons]
    simp only [hlim, Bool.false_eq_true, if_false]
    rw [htf]
    show (targetLoop recur i rule st targets).andThen
      (fun st2 => ruleLoop dom recur limit root (i + 1) st2 rest) = .fatal evs m
    rw [htl]
    rfl
  · intro dom rules fuel limit root st evs m h
    exact h
  · exact fun dom rules fuel limit root st st2 evs hlen h =>
      runRulesGo_post dom rules fuel limit root st st2 evs hlen h

/-- C6 witness: a chain whose prepare stage throws a CJSSError after a
successful data stage: the error is logged with context and the script
stage never runs; a fatal (non-CJSS) error in ruleF's data stage
propagates to the top of the runner; and a completed pass over dom6
still processes the second matched target although the first aborted
with a user-code error. -/
theorem C6_stage_error_handling_witness :
    runStages ("s") 0 (some 1)
      ([mkStage .data (JSVal.numV 1)] ++ mkFailStage .prepare ("boom2") ::
        [mkStage .script JSVal.undef]) JSVal.objNil =
      ⟨[Ev.stageEv 0 (some 1) .data JSVal.objNil (.ok (JSVal.numV 1)),
        Ev.stageEv 0 (some 1) .prepare (JSVal.numV 1) (.errCjss ("boom2")),
        Ev.errLog ("boom2") ("s") (some 1) .prepare (some ("x")) ("b")],
       JSVal.numV 1, true, none⟩ ∧
    runRulesGo dom5 [ruleF] 1 none .doc [[]] =
      .fatal [Ev.run 0 (some 1),
        Ev.stageEv 0 (some 1) .data JSVal.objNil (.errOther ("FATAL"))] ("FATAL") ∧
    some 2 ∈ ([[some 2, some 1]] : ProcState).getD 0 [] := by
  refine ⟨?_, ?_, ?_⟩
  · have h := C6_stage_error_handling.1 ("s") 0 (some 1)
      [mkStage .data (JSVal.numV 1)] (mkFailStage .prepare ("boom2"))
      [mkStage .script JSVal.undef] JSVal.objNil ("boom2") rfl rfl rfl
    exact h
  · have h := C6_stage_error_handling.2.2.2.2.1 dom5 [ruleF] 0 none .doc [[]]
      [Ev.run 0 (some 1),
       Ev.stageEv 0 (some 1) .data JSVal.objNil (.errOther ("FATAL"))] ("FATAL") ?_
    · exact h
    · have h4 := C6_stage_error_handling.2.2.2.1 dom5
        (fun j t st2 => runRulesGo dom5 [ruleF] 0 (some j) (rootOfTarget t) st2)
        none .doc 0 [[]] ruleF [] [some 1] ("FATAL")
        [Ev.run 0 (some 1),
         Ev.stageEv 0 (some 1) .data JSVal.objNil (.errOther ("FATAL"))]
        (by decide) rfl ?_
      · exact h4
      · have h3 := C6_stage_error_handling.2.2.1
          (fun j t st2 => runRulesGo dom5 [ruleF] 0 (some j) (rootOfTarget t) st2)
          0 ruleF [[]] (some 1) [] ("FATAL") (by decide) rfl
        exact h3
  · have h := C6_stage_error_handling.2.2.2.2.2 dom6 [ruleC] 1 none .doc [[]]
      [[some 2, some 1]]
      [Ev.run 0 (some 1),
       Ev.stageEv 0 (some 1) .data JSVal.objNil (.errCjss ("boom")),
       Ev.errLog ("boom") ("b") (some 1) .data (some ("x")) ("b"),
       Ev.run 0 (some 2),
       Ev.stageEv 0 (some 2) .data JSVal.objNil (.errCjss ("boom")),
       Ev.errLog ("boom") ("b") (some 2) .data (some ("x")) ("b")]
      (by decide) (by decide) 0 (by decide) (by decide) [some 1, some 2] rfl
      (some 2) (by decide)
    exact h


/-! ### C4: the termination measure and re-entry depth -/

theorem length_filter_mono {p q : Target → Bool} (l : List Target)
    (h : ∀ a, p a = true → q a = true) :
    (l.filter p).length ≤ (l.filter q).length := by
  induction l with
  | nil => simp
  | cons a l ih =>
    rw [List.filter_cons, List.filter_cons]
    by_cases hp : p a = true
    · rw [if_pos hp, if_pos (h a hp)]
      simpa using ih
    · rw [if_neg hp]
      by_cases hq : q a = true
      · rw [if_pos hq]
        exact Nat.le_succ_of_le ih
      · rw [if_neg hq]
        exact ih

theorem slack_mono (dom : Dom) {row row2 : List Target}
    (h : ∀ x ∈ row, x ∈ row2) : slack dom row2 ≤ slack dom row := by
  unfold slack
  apply length_filter_mono
  intro a ha
  simp only [decide_eq_true_eq] at ha ⊢
  intro hmem
  exact ha (h a hmem)

theorem filter_fresh_lt (t : Target) (row : List Target) (hfresh : t ∉ row) :
    ∀ (l : List Target), t ∈ l →
      (l.filter (fun u => decide (u ∉ t :: row))).length <
      (l.filter (fun u => decide (u ∉ row))).length := by
  intro l
  induction l with
  | nil => intro h; simp at h
  | cons a l ih =>
    intro hmem
    rw [List.filter_cons, List.filter_cons]
    by_cases hat : a = t
    · subst hat
      rw [if_neg (by simp), if_pos (by simpa using hfresh)]
      have hmono : (l.filter (fun u => decide (u ∉ a :: row))).length ≤
          (l.filter (fun u => decide (u ∉ row))).length := by
        apply length_filter_mono
        intro x hx
        simp only [decide_eq_true_eq] at hx ⊢
        intro hxr
        exact hx (List.mem_cons_of_mem _ hxr)
      simpa using Nat.lt_succ_of_le hmono
    · have hmem2 : t ∈ l := by
        rcases List.mem_cons.mp hmem with h | h
        · exact absurd h.symm hat
        · exact h
      have hsame : (decide (a ∉ t :: row)) = (decide (a ∉ row)) := by
        by_cases har : a ∈ row
        · simp [har]
        · simp [har, hat]
      by_cases har : (decide (a ∉ row)) = true
      · rw [if_pos (by rw [hsame]; exact har), if_pos har]
        simpa using ih hmem2
      · rw [if_neg (by rw [hsame]; exact har), if_neg har]
        exact ih hmem2

theorem slack_insert_lt (dom : Dom) (row : List Target) (t : Target)
    (ht : t ∈ targetUniv dom) (hfresh : t ∉ row) :
    slack dom (t :: row) < slack dom row := by
  unfold slack
  exact filter_fresh_lt t row hfresh (targetUniv dom) ht

theorem fuelNeed_mono (dom : Dom) : ∀ (st st2 : ProcState), StExt st st2 →
    fuelNeed dom st2 ≤ fuelNeed dom st := by
  intro st
  induction st with
  | nil =>
    intro st2 hext
    have h0 : st2 = [] := List.length_eq_zero.mp hext.1
    rw [h0]
  | cons r st ih =>
    intro st2 hext
    match st2 with
    | [] => exact absurd hext.1 (by simp)
    | r2 :: st2t =>
      have h0 : ∀ x ∈ r, x ∈ r2 := by
        intro x hx
        have := hext.2 0 x (by simpa using hx)
        simpa using this
      have htail : StExt st st2t := by
        refine ⟨by simpa using hext.1, fun j x hx => ?_⟩
        have := hext.2 (j + 1) x (by simpa [List.getD_cons_succ] using hx)
        simpa [List.getD_cons_succ] using this
      unfold fuelNeed
      simp only [List.map_cons, List.sum_cons]
      exact Nat.add_le_add (slack_mono dom h0) (ih st2t htail)

theorem fuelNeed_mark_lt (dom : Dom) : ∀ (st : ProcState) (i : Nat) (t : Target),
    i < st.length → t ∈ targetUniv dom → t ∉ st.getD i [] →
    fuelNeed dom (markProcessed st i t) < fuelNeed dom st := by
  intro st
  induction st with
  | nil => intro i t h; simp at h
  | cons r st ih =>
    intro i t hi ht hfresh
    cases i with
    | zero =>
      have hm : markProcessed (r :: st) 0 t = (t :: r) :: st := rfl
      rw [hm]
      unfold fuelNeed
      simp only [List.map_cons, List.sum_cons]
      have := slack_insert_lt dom r t ht (by simpa using hfresh)
      omega
    | succ n =>
      have hm : markProcessed (r :: st) (n + 1) t = r :: markProcessed st n t := rfl
      rw [hm]
      have := ih n t (by simpa using hi) ht (by simpa [List.getD_cons_succ] using hfresh)
      simp only [fuelNeed, List.map_cons, List.sum_cons] at this ⊢
      omega

/-- In a well-formed DOM, every target of every rule lies in the
target universe. -/
theorem targetsFor_sub_univ (dom : Dom) (root : Root) (r : CompiledRule)
    (hwf : DomWf dom) (tg : List Target) (h : targetsFor dom root r = .ok tg) :
    ∀ t ∈ tg, t ∈ targetUniv dom := by
  unfold targetsFor at h
  by_cases hs : r.selector = "script"
  · rw [if_pos hs] at h
    have htg : tg = [none] := ((Except.ok.injEq _ _).mp h).symm
    intro t htm
    rw [htg] at htm
    simp only [List.mem_singleton] at htm
    rw [htm]
    simp [targetUniv]
  · rw [if_neg hs] at h
    cases root with
    | doc =>
      have htg : tg = (dom.query none r.selector).map some :=
        ((Except.ok.injEq _ _).mp h).symm
      intro t htm
      rw [htg] at htm
      obtain ⟨e, he, rfl⟩ := List.mem_map.mp htm
      simp only [targetUniv, List.mem_cons, List.mem_map]
      exact Or.inr ⟨e, hwf none r.selector e he, rfl⟩
    | elem e0 =>
      have htg : tg = (dom.query (some e0) r.selector).map some :=
        ((Except.ok.injEq _ _).mp h).symm
      intro t htm
      rw [htg] at htm
      obtain ⟨e, he, rfl⟩ := List.mem_map.mp htm
      simp only [targetUniv, List.mem_cons, List.mem_map]
      exact Or.inr ⟨e, hwf (some e0) r.selector e he, rfl⟩
    | nullRoot => exact absurd h (by simp)

theorem Out.seq_ne_fuelOut {pre : List Ev} {o : Out} (h : o ≠ .fuelOut) :
    Out.seq pre o ≠ .fuelOut := by
  cases o with
  | fuelOut => exact absurd rfl h
  | fatal e m => simp [Out.seq]
  | ok st e => simp [Out.seq]

/-- The element loop never exhausts the budget if the re-entrant
runner cannot below the current measure. -/
theorem targetLoop_complete (recur : Nat → Target → ProcState → Out) (i : Nat)
    (rule : CompiledRule) (dom : Dom) (N B : Nat) (hi : i < N)
    (hrecInv : ∀ j u st2, st2.length = N → OutInv st2 (recur j u st2))
    (hrecC : ∀ j u st2, st2.length = N → fuelNeed dom st2 < B →
      recur j u st2 ≠ .fuelOut) :
    ∀ (targets : List Target) (st : ProcState), st.length = N →
      (∀ t ∈ targets, t ∈ targetUniv dom) →
      fuelNeed dom st ≤ B →
      targetLoop recur i rule st targets ≠ .fuelOut := by
  intro targets
  induction targets with
  | nil =>
    intro st _ _ _
    simp [targetLoop]
  | cons t ts ih =>
    intro st hlen htu hB
    rw [targetLoop_cons]
    by_cases hmem : t ∈ st.getD i []
    · rw [if_pos hmem]
      exact ih st hlen (fun u hu => htu u (by simp [hu])) hB
    · rw [if_neg hmem]
      apply Out.seq_ne_fuelOut
      match hf : (runStages rule.selector i t rule.stages JSVal.objNil).fatalMsg with
      | some m => simp
      | none =>
        have hlt : fuelNeed dom (markProcessed st i t) < fuelNeed dom st :=
          fuelNeed_mark_lt dom st i t (by omega) (htu t (by simp)) hmem
        have hlen1 : (markProcessed st i t).length = N := by
          rw [markProcessed_length, hlen]
        by_cases hub : updatesBody rule
        · rw [if_pos hub]
          match hrecr : recur i t (markProcessed st i t) with
          | .fuelOut =>
            exact absurd hrecr (hrecC i t _ hlen1 (by omega))
          | .fatal evs2 m => simp [Out.andThen]
          | .ok st2 evs2 =>
            have h2 : OutInv (markProcessed st i t) (.ok st2 evs2) :=
              hrecr ▸ hrecInv i t _ hlen1
            have hlen2 : st2.length = N := by rw [h2.1.1, hlen1]
            have hB2 : fuelNeed dom st2 ≤ B := by
              have := fuelNeed_mono dom (markProcessed st i t) st2 h2.1
              omega
            have hcont := ih st2 hlen2 (fun u hu => htu u (by simp [hu])) hB2
            simp only [Out.andThen]
            apply Out.seq_ne_fuelOut
            exact hcont
        · rw [if_neg hub]
          exact ih _ hlen1 (fun u hu => htu u (by simp [hu])) (by omega)

/-- The rule loop never exhausts the budget under the same
conditions. -/
theorem ruleLoop_complete (dom : Dom) (recur : Nat → Target → ProcState → Out)
    (limit : Option Nat) (root : Root) (N B : Nat) (hwf : DomWf dom)
    (hrecInv : ∀ j u st2, st2.length = N → OutInv st2 (recur j u st2))
    (hrecC : ∀ j u st2, st2.length = N → fuelNeed dom st2 < B →
      recur j u st2 ≠ .fuelOut) :
    ∀ (rest : List CompiledRule) (i : Nat) (st : ProcState),
      st.length = N → i + rest.length ≤ N →
      fuelNeed dom st ≤ B →
      ruleLoop dom recur limit root i st rest ≠ .fuelOut := by
  intro rest
  induction rest with
  | nil =>
    intro i st _ _ _
    simp [ruleLoop]
  | cons rule rest ih =>
    intro i st hlen hbound hB
    rw [ruleLoop_cons]
    by_cases hlim : limitExceeded limit i = true
    · simp [hlim]
    · simp only [Bool.not_eq_true] at hlim
      simp only [hlim, Bool.false_eq_true, if_false]
      match htf : targetsFor dom root rule with
      | .error m => simp
      | .ok targets =>
        show (targetLoop recur i rule st targets).andThen
          (fun st2 => ruleLoop dom recur limit root (i + 1) st2 rest) ≠ Out.fuelOut
        have h1ne := targetLoop_complete recur i rule dom N B
          (by simp at hbound; omega) hrecInv hrecC targets st hlen
          (targetsFor_sub_univ dom root rule hwf targets htf) hB
        match h2 : targetLoop recur i rule st targets with
        | .fuelOut => exact absurd h2 h1ne
        | .fatal evs m => simp [Out.andThen]
        | .ok st2 evs =>
          have hinv : OutInv st (.ok st2 evs) :=
            h2 ▸ targetLoop_inv recur i rule N (by simp at hbound; omega) hrecInv
              targets st hlen
          have hlen2 : st2.length = N := by rw [hinv.1.1, hlen]
          have hB2 : fuelNeed dom st2 ≤ B := by
            have := fuelNeed_mono dom st st2 hinv.1
            omega
          show Out.seq evs (ruleLoop dom recur limit root (i + 1) st2 rest) ≠ Out.fuelOut
          exact Out.seq_ne_fuelOut (ih (i + 1) st2 hlen2 (by simp at hbound; omega) hB2)

/-- With a budget exceeding the number of unprocessed (rule, target)
pairs, the runner never exhausts it: a render pass over a fixed finite
DOM terminates, with re-entry depth bounded by the pair count. -/
theorem runRulesGo_complete (dom : Dom) (rules : List CompiledRule)
    (hwf : DomWf dom) :
    ∀ (fuel : Nat) (limit : Option Nat) (root : Root) (st : ProcState),
      st.length = rules.length → fuelNeed dom st < fuel →
      runRulesGo dom rules fuel limit root st ≠ .fuelOut := by
  intro fuel
  induction fuel with
  | zero =>
    intro _ _ st _ hneed
    simp at hneed
  | succ fuel ih =>
    intro limit root st hlen hneed
    show ruleLoop dom
      (fun j t st2 => runRulesGo dom rules fuel (some j) (rootOfTarget t) st2)
      limit root 0 st rules ≠ .fuelOut
    refine ruleLoop_complete dom _ limit root rules.length (fuelNeed dom st) hwf
      (fun j u st2 hl => runRulesGo_inv dom rules fuel (some j) (rootOfTarget u) st2 hl)
      (fun j u st2 hl hless => ih (some j) (rootOfTarget u) st2 hl (by omega))
      rules 0 st hlen (by omega) (by omega)

/-- An untouched state needs exactly (rule count) × (element count + 1)
units of budget. -/
theorem fuelNeed_initSt (dom : Dom) (rules : List CompiledRule) :
    fuelNeed dom (initSt rules) = rules.length * (dom.elems.length + 1) := by
  have hs : slack dom [] = dom.elems.length + 1 := by
    unfold slack
    rw [List.filter_eq_self.mpr (by intro a _; simp)]
    simp [targetUniv]
  unfold fuelNeed initSt
  induction rules.length with
  | zero => simp
  | succ n ihn =>
    rw [List.replicate_succ]
    simp only [List.map_cons, List.sum_cons]
    rw [ihn, hs]
    ring

/-- dom4's queries stay inside its element universe. -/
theorem dom4_wf : DomWf dom4 := by
  intro r s e he
  simp only [dom4] at he ⊢
  split at he
  · split at he
    · simpa using he
    · split at he
      · simp only [List.mem_singleton] at he
        simp [he]
      · simp at he
  · simp at he

/-- C4 (amended): each recursive Rule Runner call's index ceiling is
the spawning rule index, which is at most (but not always strictly
below) the spawning call's ceiling, so the re-entry depth is bounded
by the number of unprocessed (rule, target) pairs — rule count times
(element count + 1) from a fresh state — rather than by the rule
count; with a nesting budget exceeding that pair count every render
pass over a fixed finite DOM runs to exhaustion (terminates, never
reporting an exhausted budget). -/
theorem C4_termination_amended (dom : Dom) (rules : List CompiledRule)
    (hwf : DomWf dom) :
    (∀ (fuel : Nat) (limit : Option Nat) (root : Root) (st : ProcState),
      st.length = rules.length → fuelNeed dom st < fuel →
      runRulesGo dom rules fuel limit root st ≠ .fuelOut) ∧
    fuelNeed dom (initSt rules) = rules.length * (dom.elems.length + 1) ∧
    (∀ fuel, rules.length * (dom.elems.length + 1) < fuel →
      runRulesTop dom rules fuel ≠ .fuelOut) := by
  refine ⟨runRulesGo_complete dom rules hwf, fuelNeed_initSt dom rules, ?_⟩
  intro fuel hfuel
  unfold runRulesTop
  exact runRulesGo_complete dom rules hwf fuel none .doc (initSt rules)
    (by simp [initSt]) (by rw [fuelNeed_initSt]; omega)

/-- C4 counterexample: one rule with a body stage over a DOM with two
nested matching elements: the pass needs re-entry depth 2 — a nesting
budget of rule count + 1 = 2 is exhausted — although it terminates
with budget 3.  The recursion depth exceeds the total number of
compiled rules, and the level-1 call at ceiling 0 spawns a level-2
call with the same ceiling 0 (not strictly narrower). -/
theorem C4_counterexample :
    runRulesGo dom4 [rule4] 2 none .doc [[]] = .fuelOut ∧
    List.length [rule4] + 1 = 2 ∧
    runRulesGo dom4 [rule4] 3 none .doc [[]] = .ok [[some 2, some 1]]
      [Ev.run 0 (some 1),
       Ev.stageEv 0 (some 1) .body JSVal.objNil (.ok JSVal.undef),
       Ev.run 0 (some 2),
       Ev.stageEv 0 (some 2) .body JSVal.objNil (.ok JSVal.undef)] := by
  exact ⟨by decide, rfl, by decide⟩

/-- C4 witness: the amended bound at the concrete nested DOM: the pair
count is 1 × (2 + 1) = 3, and budget 4 completes the pass. -/
theorem C4_termination_amended_witness :
    fuelNeed dom4 (initSt [rule4]) = 3 ∧
    runRulesTop dom4 [rule4] 4 ≠ .fuelOut := by
  have h := C4_termination_amended dom4 [rule4] dom4_wf
  refine ⟨by rw [h.2.1]; decide, h.2.2 4 (by decide)⟩

end CJSS
